import Mathlib

/-!
Verification of the MARS ranking core of `ptcgp_ranking` (src/mars/*.py).

Modelling conventions (shallow embedding):
* Python/NumPy floats are idealised as exact rationals `ℚ`.
* A pandas/NumPy NaN cell ("no value") is `none`; a matrix is `Fin T → Fin T → Option ℚ`.
* `fillna(0)` / `nan_to_num` is `Option.getD · 0`; the pandas skipna sum of a row is the
  sum of the defined entries (an all-NaN row sums to `0`, as pandas does).
* Transcendental library functions (`sqrt`, `erf`, `exp`, `log`, `lgamma`, non-integer
  powers) have no exact rational counterpart; they are passed as explicit function
  parameters, and each theorem assumes only the pointwise facts about them that the
  real functions satisfy (e.g. `sqrt x ≥ 0`, `erf 0 = 0`).
* NumPy's seeded generator is an explicit draw function `ℕ → ℕ → ℕ` produced from the
  configured seed; given the seed it is a fixed function, which is exactly the
  determinism contract of `np.random.default_rng(seed)`.
-/

set_option autoImplicit false
set_option maxRecDepth 100000

namespace Mars

/-- A matrix cell: `none` models a pandas/NumPy NaN ("no value"). -/
abbrev Cell := Option ℚ

/-- `fillna(0)` / `nan_to_num(x, nan=0.0)`: read a cell, NaN becoming 0. -/
def fill0 (x : Cell) : ℚ := x.getD 0

/-- NaN-propagating product (NumPy/pandas elementwise `*`). -/
def omul (a b : Cell) : Cell :=
  match a, b with
  | some x, some y => some (x * y)
  | _, _ => none

/-- pandas `.sum(skipna=True)` over one axis: NaN terms are skipped and an
all-NaN collection sums to `0.0` (pandas' default `min_count=0`). -/
def sumSkip {T : ℕ} (f : Fin T → Cell) : ℚ := ∑ j, fill0 (f j)

/-- `np.clip(x, lo, hi)`: NumPy computes `min(max(x, lo), hi)` (so `hi` wins
when `lo > hi`). -/
def clipQ (x lo hi : ℚ) : ℚ := min (max x lo) hi

/-- `src/mars/config.py` — `MARSConfig` (the fields the core computation reads;
float defaults rendered as exact rationals). -/
structure MARSConfig where
  MU : ℚ := 1/2
  Z_PENALTY : ℚ := 6/5
  ALPHA_COMPOSITE : ℚ := 18/25
  AUTO_GAMMA : Bool := false
  GAMMA_META_BLEND : ℚ := 3/10
  GAMMA_MIN : ℚ := 1/10
  GAMMA_MAX : ℚ := 3/5
  GAMMA_BASE : ℚ := 1/10
  GAMMA_SLOPE : ℚ := 3/2
  META_GAP_POLICY : String := "encounter"
  K_MIN : ℚ := 1/10
  K_CONST_BOUNDS : ℚ × ℚ := (1/20, 50)
  RHO_TEST : ℚ := 1/3
  BOOT_N : ℕ := 50
  SEED : ℕ := 42
  REL_TOL_LL : ℚ := 1/1000
  N_MIN_BT_TARGET : ℕ := 5
  BT_SOFT_POWER : Option ℚ := none
  BT_NEAR_BAND : ℚ := 1/10
  BT_USE_HARMONIC_N : Bool := true
  LAMBDA_RIDGE : ℚ := 3/2
  MAX_BT_ITER : ℕ := 500
  BT_TOL : ℚ := 1/1000000
  EPS : ℚ := 1/1000000000000

/-- The two posterior matrices returned by `posterior_dir`. -/
structure Posterior (T : ℕ) where
  p_hat : Fin T → Fin T → Cell
  var_hat : Fin T → Fin T → Cell

/-- `src/mars/posterior.py` — `posterior_dir`: Beta–Binomial posterior mean and
variance per directional cell, prior `Beta(μK, (1-μ)K)`.  The source reads the
count matrices through `nan_to_num(·, nan=0)` and overwrites the diagonal of
both outputs with NaN at the end. -/
def posterior_dir {T : ℕ} (S F : Fin T → Fin T → Cell) (K : ℚ) (cfg : MARSConfig) :
    Posterior T :=
  let A0 := cfg.MU * K
  let B0 := (1 - cfg.MU) * K
  { p_hat := fun i j =>
      if i = j then none
      else
        let a := fill0 (S i j) + A0
        let b := fill0 (F i j) + B0
        some (a / (a + b))
    var_hat := fun i j =>
      if i = j then none
      else
        let a := fill0 (S i j) + A0
        let b := fill0 (F i j) + B0
        some ((a * b) / ((a + b) ^ 2 * (a + b + 1))) }

/-- C7: `posterior_dir` computes, at every off-diagonal cell, exactly
`p_hat = (W + μK)/(W + L + K)` and
`var_hat = αβ/((α+β)²(α+β+1))` with `α = W + μK`, `β = L + (1-μ)K`;
both diagonals are undefined; and for `K > 0`, `0 < μ < 1` and nonnegative
counts every off-diagonal `p_hat` value is strictly between 0 and 1. -/
theorem c7_posterior_correct {T : ℕ} (S F : Fin T → Fin T → Cell) (K : ℚ)
    (cfg : MARSConfig) (hK : 0 < K) (hmu0 : 0 < cfg.MU) (hmu1 : cfg.MU < 1)
    (hS : ∀ i j, 0 ≤ fill0 (S i j)) (hF : ∀ i j, 0 ≤ fill0 (F i j)) :
    (∀ i j : Fin T, i ≠ j →
      (posterior_dir S F K cfg).p_hat i j =
        some ((fill0 (S i j) + cfg.MU * K) /
              (fill0 (S i j) + fill0 (F i j) + K)) ∧
      (posterior_dir S F K cfg).var_hat i j =
        some (((fill0 (S i j) + cfg.MU * K) * (fill0 (F i j) + (1 - cfg.MU) * K)) /
              (((fill0 (S i j) + cfg.MU * K) + (fill0 (F i j) + (1 - cfg.MU) * K)) ^ 2 *
               ((fill0 (S i j) + cfg.MU * K) + (fill0 (F i j) + (1 - cfg.MU) * K) + 1))) ∧
      (∀ p : ℚ, (posterior_dir S F K cfg).p_hat i j = some p → 0 < p ∧ p < 1)) ∧
    (∀ i : Fin T,
      (posterior_dir S F K cfg).p_hat i i = none ∧
      (posterior_dir S F K cfg).var_hat i i = none) := by
  constructor
  · intro i j hij
    have ha : 0 < fill0 (S i j) + cfg.MU * K := by
      have : 0 < cfg.MU * K := mul_pos hmu0 hK
      linarith [hS i j]
    have hb : 0 < fill0 (F i j) + (1 - cfg.MU) * K := by
      have : 0 < (1 - cfg.MU) * K := mul_pos (by linarith) hK
      linarith [hF i j]
    refine ⟨?_, ?_, ?_⟩
    · simp only [posterior_dir, if_neg hij]
      congr 1
      ring_nf
    · simp only [posterior_dir, if_neg hij]
    · intro p hp
      simp only [posterior_dir, if_neg hij, Option.some.injEq] at hp
      subst hp
      constructor
      · exact div_pos ha (by linarith)
      · rw [div_lt_one (by linarith)]
        linarith
  · intro i
    simp [posterior_dir]

/-- Witness for C7 at a concrete input: two decks, `W[0,1]=3`, `L[0,1]=1`,
`K = 2`, default configuration. -/
theorem c7_posterior_correct_witness :
    (0:ℚ) < 2 ∧ (0:ℚ) < (1:ℚ)/2 ∧ ((1:ℚ)/2) < 1 ∧
    ((posterior_dir (T := 2)
        (fun i j => if i = 0 ∧ j = 1 then some 3 else none)
        (fun i j => if i = 0 ∧ j = 1 then some 1 else none)
        2 {}).p_hat 0 1 = some (2/3) ∧
     ∀ p : ℚ, (posterior_dir (T := 2)
        (fun i j => if i = 0 ∧ j = 1 then some 3 else none)
        (fun i j => if i = 0 ∧ j = 1 then some 1 else none)
        2 {}).p_hat 0 1 = some p → 0 < p ∧ p < 1) := by
  refine ⟨by norm_num, by norm_num, by norm_num, ?_, ?_⟩
  · with_unfolding_all rfl
  · intro p hp
    exact ((c7_posterior_correct (T := 2)
      (fun i j => if i = 0 ∧ j = 1 then some 3 else none)
      (fun i j => if i = 0 ∧ j = 1 then some 1 else none)
      2 {} (by norm_num) (by norm_num) (by norm_num)
      (by intro i j; fin_cases i <;> fin_cases j <;> simp [fill0])
      (by intro i j; fin_cases i <;> fin_cases j <;> simp [fill0])).1
      0 1 (by decide)).2.2 p hp

/-! ## `src/mars/composite.py` -/

/-- `np.nanmean` over a NaN-free series: population mean. -/
def popMean {T : ℕ} (s : Fin T → ℚ) : ℚ := (∑ i, s i) / T

/-- Population variance; `np.nanstd` is its square root. -/
def popVar {T : ℕ} (s : Fin T → ℚ) : ℚ := (∑ i, (s i - popMean s) ^ 2) / T

/-- `_z`: population z-score with the degeneracy guard `sd ≤ 1e-12 → 0`.
`sd = np.nanstd(v)` is read through the explicit `sqrtQ` parameter. -/
def zScore {T : ℕ} (sqrtQ : ℚ → ℚ) (s : Fin T → ℚ) : Fin T → ℚ := fun i =>
  if sqrtQ (popVar s) ≤ 1/10^12 then 0 else (s i - popMean s) / sqrtQ (popVar s)

/-- `compose`: `z = α·z(LB) + (1-α)·z(BT)` and
`Score_% = 100·½·(1 + erf(z/√2))`; `erf` and the constant `√2` are explicit
parameters. -/
def compose {T : ℕ} (sqrtQ erfQ : ℚ → ℚ) (sqrt2 : ℚ) (lb bt : Fin T → ℚ)
    (alpha : ℚ) : Fin T → ℚ := fun i =>
  100 * (1/2) *
    (1 + erfQ ((alpha * zScore sqrtQ lb i + (1 - alpha) * zScore sqrtQ bt i) / sqrt2))

/-! ## `src/mars/mas_lb.py` — `mas_se_lb` -/

/-- Observation mask `OBS = (n_dir.fillna(0) > 0)` with the diagonal forced to
`False` (`np.fill_diagonal(OBS.values, False)`). -/
def OBSb {T : ℕ} (n_dir : Fin T → Fin T → Cell) (i j : Fin T) : Bool :=
  decide (i ≠ j) && decide (0 < fill0 (n_dir i j))

/-- The observed opponents of deck `i` (the `True` entries of row `i` of `OBS`). -/
def obsSet {T : ℕ} (n_dir : Fin T → Fin T → Cell) (i : Fin T) : Finset (Fin T) :=
  Finset.univ.filter (fun j => OBSb n_dir i j = true)

/-- `W_masked`: the meta weights broadcast per row, zeroed where not observed. -/
def masWmask {T : ℕ} (p_weights : Fin T → ℚ) (n_dir : Fin T → Fin T → Cell)
    (i j : Fin T) : ℚ :=
  if OBSb n_dir i j then p_weights j else 0

/-- `row_sum = W_masked.sum(axis=1)`. -/
def masRowSum {T : ℕ} (p_weights : Fin T → ℚ) (n_dir : Fin T → Fin T → Cell)
    (i : Fin T) : ℚ :=
  ∑ j, masWmask p_weights n_dir i j

/-- `W_norm`: row-normalised weights.  A row with no observed opponent is set to
all-NaN; a row with observed opponents but `row_sum ≤ 0` falls back to the
uniform distribution on its observed opponents (`rows_need_uniform`); otherwise
the row is `W_masked / row_sum`. -/
def masWnorm {T : ℕ} (p_weights : Fin T → ℚ) (n_dir : Fin T → Fin T → Cell)
    (i j : Fin T) : Cell :=
  if (obsSet n_dir i).card = 0 then none
  else if masRowSum p_weights n_dir i ≤ 0 then
    some (if OBSb n_dir i j then ((obsSet n_dir i).card : ℚ)⁻¹ else 0)
  else some (masWmask p_weights n_dir i j / masRowSum p_weights n_dir i)

/-- `MAS = (W_norm * p_hat).sum(axis=1)` — a skipna sum, so an all-NaN row
produces `0.0`, not NaN. -/
def masMAS {T : ℕ} (p_hat : Fin T → Fin T → Cell) (p_weights : Fin T → ℚ)
    (n_dir : Fin T → Fin T → Cell) (i : Fin T) : ℚ :=
  sumSkip (fun j => omul (masWnorm p_weights n_dir i j) (p_hat i j))

/-- `VAR_MAS = (W_norm**2 * var_hat).sum(axis=1)` (skipna). -/
def masVAR {T : ℕ} (var_hat : Fin T → Fin T → Cell) (p_weights : Fin T → ℚ)
    (n_dir : Fin T → Fin T → Cell) (i : Fin T) : ℚ :=
  sumSkip (fun j =>
    omul (omul (masWnorm p_weights n_dir i j) (masWnorm p_weights n_dir i j))
      (var_hat i j))

/-- The three per-deck output columns of `mas_se_lb` (percent scale). -/
structure MasOut (T : ℕ) where
  MASpct : Fin T → ℚ
  SEpct : Fin T → ℚ
  LBpct : Fin T → ℚ

/-- `src/mars/mas_lb.py` — `mas_se_lb`.  `SE = VAR.clip(lower=0) ** 0.5` is the
nonnegative square root, taken through the explicit `sqrtQ` parameter;
`LB = MAS - Z_PENALTY * SE`; all three are reported `* 100`. -/
def mas_se_lb {T : ℕ} (sqrtQ : ℚ → ℚ) (p_hat var_hat : Fin T → Fin T → Cell)
    (p_weights : Fin T → ℚ) (n_dir : Fin T → Fin T → Cell) (cfg : MARSConfig) :
    MasOut T :=
  { MASpct := fun i => masMAS p_hat p_weights n_dir i * 100
    SEpct := fun i => sqrtQ (max (masVAR var_hat p_weights n_dir i) 0) * 100
    LBpct := fun i =>
      (masMAS p_hat p_weights n_dir i -
        cfg.Z_PENALTY * sqrtQ (max (masVAR var_hat p_weights n_dir i) 0)) * 100 }

/-- Skipna product against a defined weight collapses to an ordinary product
with the NaN read as 0. -/
theorem fill0_omul_some (w : ℚ) (x : Cell) :
    fill0 (omul (some w) x) = w * fill0 x := by
  cases x <;> simp [omul, fill0]

/-- A NaN factor poisons the product. -/
theorem omul_none_left (x : Cell) : omul none x = none := by
  cases x <;> rfl

/-- For a row with at least one observed opponent, every `W_norm` entry is a
defined nonnegative number. -/
theorem masWnorm_some {T : ℕ} (p_weights : Fin T → ℚ) (n_dir : Fin T → Fin T → Cell)
    (i : Fin T) (h0 : (obsSet n_dir i).card ≠ 0) (hw : ∀ j, 0 ≤ p_weights j) (j : Fin T) :
    ∃ w : ℚ, masWnorm p_weights n_dir i j = some w ∧ 0 ≤ w := by
  unfold masWnorm
  rw [if_neg h0]
  by_cases hrs : masRowSum p_weights n_dir i ≤ 0
  · rw [if_pos hrs]
    refine ⟨_, rfl, ?_⟩
    split
    · positivity
    · exact le_refl 0
  · rw [if_neg hrs]
    refine ⟨_, rfl, ?_⟩
    push_neg at hrs
    apply div_nonneg _ (le_of_lt hrs)
    unfold masWmask
    split
    · exact hw j
    · exact le_refl 0

/-- For a row with at least one observed opponent, the `W_norm` entries sum
to 1. -/
theorem masWnorm_sum_one {T : ℕ} (p_weights : Fin T → ℚ)
    (n_dir : Fin T → Fin T → Cell) (i : Fin T)
    (h0 : (obsSet n_dir i).card ≠ 0) :
    ∑ j, fill0 (masWnorm p_weights n_dir i j) = 1 := by
  unfold masWnorm
  simp only [if_neg h0]
  by_cases hrs : masRowSum p_weights n_dir i ≤ 0
  · simp only [if_pos hrs, fill0, Option.getD_some]
    have hsum : ∑ j, (if OBSb n_dir i j then ((obsSet n_dir i).card : ℚ)⁻¹ else 0) =
        ∑ j ∈ obsSet n_dir i, ((obsSet n_dir i).card : ℚ)⁻¹ := by
      unfold obsSet
      rw [Finset.sum_filter]
    rw [hsum, Finset.sum_const, nsmul_eq_mul]
    rw [mul_inv_cancel₀]
    exact_mod_cast h0
  · simp only [if_neg hrs, fill0, Option.getD_some]
    rw [← Finset.sum_div]
    exact div_self (by push_neg at hrs; exact ne_of_gt hrs)

/-- C1 (amended): for a deck with no observed opponent, `mas_se_lb` outputs
`MAS_% = SE_% = LB_% = 0` (the all-NaN weight row is skipna-summed to 0.0, not
propagated as NaN); for a deck with at least one observed opponent and
posterior-shaped inputs (`p_hat ∈ [0,1]`, nonnegative weights, nonnegative
`sqrt`), `MAS_%` lies in `[0,100]`, `SE_% ≥ 0` and `LB_% ≤ MAS_%` — but `LB_%`
has no lower bound of 0 (see the counterexample); and the composite `Score_%`
does stay within `[0,100]` for any input series, since `|erf| ≤ 1`
(`BT_% ∈ (0,100)` is the C10 result). -/
theorem c1_mas_outputs_amended {T : ℕ} (sqrtQ erfQ : ℚ → ℚ) (sqrt2 : ℚ)
    (p_hat var_hat : Fin T → Fin T → Cell) (p_weights : Fin T → ℚ)
    (n_dir : Fin T → Fin T → Cell) (cfg : MARSConfig)
    (hw : ∀ j, 0 ≤ p_weights j)
    (hp : ∀ i j, 0 ≤ fill0 (p_hat i j) ∧ fill0 (p_hat i j) ≤ 1)
    (hz : 0 ≤ cfg.Z_PENALTY)
    (hs : ∀ x : ℚ, 0 ≤ x → 0 ≤ sqrtQ x) (hs0 : sqrtQ 0 = 0)
    (herf : ∀ x, |erfQ x| ≤ 1) :
    (∀ i, (obsSet n_dir i).card = 0 →
      (mas_se_lb sqrtQ p_hat var_hat p_weights n_dir cfg).MASpct i = 0 ∧
      (mas_se_lb sqrtQ p_hat var_hat p_weights n_dir cfg).SEpct i = 0 ∧
      (mas_se_lb sqrtQ p_hat var_hat p_weights n_dir cfg).LBpct i = 0) ∧
    (∀ i, 0 < (obsSet n_dir i).card →
      0 ≤ (mas_se_lb sqrtQ p_hat var_hat p_weights n_dir cfg).MASpct i ∧
      (mas_se_lb sqrtQ p_hat var_hat p_weights n_dir cfg).MASpct i ≤ 100 ∧
      0 ≤ (mas_se_lb sqrtQ p_hat var_hat p_weights n_dir cfg).SEpct i ∧
      (mas_se_lb sqrtQ p_hat var_hat p_weights n_dir cfg).LBpct i ≤
        (mas_se_lb sqrtQ p_hat var_hat p_weights n_dir cfg).MASpct i) ∧
    (∀ (lbv btv : Fin T → ℚ) (alpha : ℚ) (i : Fin T),
      0 ≤ compose sqrtQ erfQ sqrt2 lbv btv alpha i ∧
      compose sqrtQ erfQ sqrt2 lbv btv alpha i ≤ 100) := by
  have hscore : ∀ (lbv btv : Fin T → ℚ) (alpha : ℚ) (i : Fin T),
      0 ≤ compose sqrtQ erfQ sqrt2 lbv btv alpha i ∧
      compose sqrtQ erfQ sqrt2 lbv btv alpha i ≤ 100 := by
    intro lbv btv alpha i
    unfold compose
    have h := herf ((alpha * zScore sqrtQ lbv i +
      (1 - alpha) * zScore sqrtQ btv i) / sqrt2)
    rw [abs_le] at h
    constructor <;> nlinarith [h.1, h.2]
  have hSE : ∀ i, 0 ≤ sqrtQ (max (masVAR var_hat p_weights n_dir i) 0) := by
    intro i
    exact hs _ (le_max_right _ _)
  refine ⟨?_, ?_, hscore⟩
  · intro i h0
    have hwn : ∀ j, masWnorm p_weights n_dir i j = none := by
      intro j
      unfold masWnorm
      rw [if_pos h0]
    have hmas : masMAS p_hat p_weights n_dir i = 0 := by
      unfold masMAS sumSkip
      apply Finset.sum_eq_zero
      intro j _
      simp only [hwn, omul_none_left, fill0, Option.getD_none]
    have hvar : masVAR var_hat p_weights n_dir i = 0 := by
      unfold masVAR sumSkip
      apply Finset.sum_eq_zero
      intro j _
      simp only [hwn, omul_none_left, fill0, Option.getD_none]
    refine ⟨?_, ?_, ?_⟩
    · simp [mas_se_lb, hmas]
    · simp [mas_se_lb, hvar, hs0]
    · simp [mas_se_lb, hmas, hvar, hs0]
  · intro i h0
    have h0' : (obsSet n_dir i).card ≠ 0 := Nat.pos_iff_ne_zero.mp h0
    have hmas0 : 0 ≤ masMAS p_hat p_weights n_dir i := by
      unfold masMAS sumSkip
      apply Finset.sum_nonneg
      intro j _
      obtain ⟨w, hwj, hw0⟩ := masWnorm_some p_weights n_dir i h0' hw j
      simp only [hwj, fill0_omul_some]
      exact mul_nonneg hw0 (hp i j).1
    have hmas1 : masMAS p_hat p_weights n_dir i ≤ 1 := by
      unfold masMAS sumSkip
      calc ∑ j, fill0 (omul (masWnorm p_weights n_dir i j) (p_hat i j))
          ≤ ∑ j, fill0 (masWnorm p_weights n_dir i j) := by
            apply Finset.sum_le_sum
            intro j _
            obtain ⟨w, hwj, hw0⟩ := masWnorm_some p_weights n_dir i h0' hw j
            simp only [hwj, fill0_omul_some]
            calc w * fill0 (p_hat i j) ≤ w * 1 :=
                  mul_le_mul_of_nonneg_left (hp i j).2 hw0
              _ = fill0 (some w) := by simp [fill0]
        _ = 1 := masWnorm_sum_one p_weights n_dir i h0'
    refine ⟨?_, ?_, ?_, ?_⟩
    · simp only [mas_se_lb]
      positivity
    · simp only [mas_se_lb]
      nlinarith
    · simp only [mas_se_lb]
      have := hSE i
      positivity
    · simp only [mas_se_lb]
      have := hSE i
      nlinarith

/-! C1 concrete instance: three decks; deck 0 has no observed opponent; decks 1
and 2 played one game which deck 1 lost (`W[1,2]=0, L[1,2]=1`), smoothed with
`K = 1` and the default configuration. -/

/-- Wins matrix of the C1 instance. -/
def c1S : Fin 3 → Fin 3 → Cell := fun i j =>
  if i = 1 ∧ j = 2 then some 0 else if i = 2 ∧ j = 1 then some 1 else none

/-- Losses matrix of the C1 instance. -/
def c1F : Fin 3 → Fin 3 → Cell := fun i j =>
  if i = 1 ∧ j = 2 then some 1 else if i = 2 ∧ j = 1 then some 0 else none

/-- `N = S.fillna(0) + F.fillna(0)` as the pipeline builds it. -/
def c1N : Fin 3 → Fin 3 → Cell := fun i j => some (fill0 (c1S i j) + fill0 (c1F i j))

/-- A square-root function that is exact at the points this instance needs. -/
def c1sqrt : ℚ → ℚ := fun x => if x = 1/16 then 1/4 else 0

/-- The `mas_se_lb` output of the C1 instance (uniform meta weights). -/
def c1out : MasOut 3 :=
  mas_se_lb c1sqrt (posterior_dir c1S c1F 1 {}).p_hat
    (posterior_dir c1S c1F 1 {}).var_hat (fun _ => 1/3) c1N {}

/-- C1 counterexample: on the concrete instance, deck 0 has no observed
opponent yet its outputs are the defined values 0 (not undefined), and deck 1
has an observed opponent yet `LB_% = -5 ∉ [0,100]`.  The conjuncts about
`c1sqrt` certify that the square-root parameter is the true square root at the
variance value `1/16` actually reached. -/
theorem c1_mas_outputs_counterexample :
    (obsSet c1N (0 : Fin 3)).card = 0 ∧
    c1out.MASpct 0 = 0 ∧ c1out.SEpct 0 = 0 ∧ c1out.LBpct 0 = 0 ∧
    0 < (obsSet c1N (1 : Fin 3)).card ∧
    c1out.MASpct 1 = 25 ∧ c1out.SEpct 1 = 25 ∧ c1out.LBpct 1 = -5 ∧
    ¬ (0 ≤ c1out.LBpct 1) ∧
    masVAR (posterior_dir c1S c1F 1 {}).var_hat (fun _ => 1/3) c1N 1 = 1/16 ∧
    c1sqrt (1/16) = 1/4 ∧ ((1:ℚ)/4) ^ 2 = 1/16 ∧ (0:ℚ) ≤ 1/4 := by
  with_unfolding_all decide

/-- Witness for C1 (amended) at the concrete instance. -/
theorem c1_mas_outputs_witness :
    ((0 : Fin 3) ∈ (Finset.univ : Finset (Fin 3)) ∧
     (obsSet c1N (0 : Fin 3)).card = 0 ∧ 0 < (obsSet c1N (1 : Fin 3)).card) ∧
    (c1out.MASpct 0 = 0 ∧ c1out.SEpct 0 = 0 ∧ c1out.LBpct 0 = 0) ∧
    (0 ≤ c1out.MASpct 1 ∧ c1out.MASpct 1 ≤ 100 ∧ 0 ≤ c1out.SEpct 1 ∧
     c1out.LBpct 1 ≤ c1out.MASpct 1) := by
  have hmain := c1_mas_outputs_amended c1sqrt (fun _ => 0) 2
    (posterior_dir c1S c1F 1 {}).p_hat
    (posterior_dir c1S c1F 1 {}).var_hat (fun _ => 1/3) c1N {}
    (by intro j; norm_num)
    (by with_unfolding_all decide)
    (by norm_num)
    (by intro x hx; unfold c1sqrt; split <;> norm_num)
    (by unfold c1sqrt; norm_num)
    (by intro x; norm_num)
  exact ⟨⟨Finset.mem_univ _, by with_unfolding_all decide, by with_unfolding_all decide⟩,
    hmain.1 0 (by with_unfolding_all decide),
    hmain.2.1 1 (by with_unfolding_all decide)⟩

/-- C9: if the LB% and BT% series are each constant across the axis, their
population variances are 0, both z-vectors are zeroed by the `sd ≤ 1e-12`
guard, and `compose` returns `Score_% = 50` for every deck (only
`sqrt 0 ≤ 1e-12` and `erf 0 = 0` are needed of the transcendental
parameters). -/
theorem c9_constant_score_fifty {T : ℕ} (sqrtQ erfQ : ℚ → ℚ) (sqrt2 : ℚ)
    (lb bt : Fin T → ℚ) (alpha : ℚ)
    (hclb : ∀ i j, lb i = lb j) (hcbt : ∀ i j, bt i = bt j)
    (hs0 : sqrtQ 0 ≤ 1/10^12) (he0 : erfQ 0 = 0) :
    ∀ i, compose sqrtQ erfQ sqrt2 lb bt alpha i = 50 := by
  intro i
  have hT : (T:ℚ) ≠ 0 := Nat.cast_ne_zero.mpr (Nat.pos_iff_ne_zero.mp i.pos)
  have hvar : ∀ s : Fin T → ℚ, (∀ a b, s a = s b) → popVar s = 0 := by
    intro s hc
    have hm : popMean s = s i := by
      unfold popMean
      rw [Finset.sum_congr rfl (fun j _ => hc j i), Finset.sum_const,
        Finset.card_univ, Fintype.card_fin, nsmul_eq_mul]
      exact mul_div_cancel_left₀ _ hT
    unfold popVar
    rw [hm]
    rw [Finset.sum_eq_zero (fun j _ => by rw [hc j i]; ring)]
    exact zero_div _
  have hz : ∀ s : Fin T → ℚ, (∀ a b, s a = s b) → zScore sqrtQ s i = 0 := by
    intro s hc
    unfold zScore
    rw [hvar s hc, if_pos hs0]
  unfold compose
  rw [hz lb hclb, hz bt hcbt]
  rw [show alpha * 0 + (1 - alpha) * 0 = 0 by ring, zero_div, he0]
  norm_num

/-- Witness for C9: two decks with constant `LB% = 37` and `BT% = 12`. -/
theorem c9_constant_score_fifty_witness :
    ((∀ i j : Fin 2, (fun _ : Fin 2 => (37:ℚ)) i = (fun _ : Fin 2 => (37:ℚ)) j) ∧
     (∀ i j : Fin 2, (fun _ : Fin 2 => (12:ℚ)) i = (fun _ : Fin 2 => (12:ℚ)) j) ∧
     (fun _ : ℚ => (0:ℚ)) 0 ≤ 1/10^12 ∧ (fun _ : ℚ => (0:ℚ)) 0 = 0) ∧
    compose (fun _ => 0) (fun _ => 0) 2 (fun _ : Fin 2 => (37:ℚ))
      (fun _ : Fin 2 => (12:ℚ)) (18/25) 0 = 50 := by
  refine ⟨⟨fun i j => rfl, fun i j => rfl, by norm_num, rfl⟩, ?_⟩
  exact c9_constant_score_fifty (fun _ => 0) (fun _ => 0) 2
    (fun _ : Fin 2 => (37:ℚ)) (fun _ : Fin 2 => (12:ℚ)) (18/25)
    (fun i j => rfl) (fun i j => rfl) (by norm_num) rfl 0

/-! ## `src/mars/meta.py` -/

/-- A pandas DataFrame skeleton: ordered row/column label lists plus a
positional cell accessor (positions outside the index ranges are never read by
the embedded operations). -/
structure PTable where
  idx : List String
  cols : List String
  val : ℕ → ℕ → Cell

/-- Position of a label in the column axis (first occurrence). -/
def colPos (t : PTable) (lab : String) : Option ℕ := t.cols.findIdx? (fun c => c = lab)

/-- `n_dir.sum(axis=0, skipna=True)` followed by `.reindex(axis).fillna(0)`:
the skipna column sum when the label is present, else 0. -/
def colSumOf (t : PTable) (lab : String) : ℚ :=
  match colPos t lab with
  | none => 0
  | some j => ((List.range t.idx.length).map (fun i => fill0 (t.val i j))).sum

/-- The optional floor clip of `_normalize_weights` (`s.clip(lower=floor)`). -/
def floorClip (floorV : Option ℚ) (x : ℚ) : ℚ :=
  match floorV with
  | none => x
  | some f => max x f

/-- `_normalize_weights`: NaNs are filled to 0 by the caller's reads; optional
floor clip; a total that is `≤ 0` (or non-finite — impossible over ℚ) falls
back to the uniform vector `ones/max(len,1)`; otherwise divide by the total. -/
def normalizeWeights {T : ℕ} (vals : Fin T → ℚ) (floorV : Option ℚ) : Fin T → ℚ :=
  fun i =>
    if (∑ k, floorClip floorV (vals k)) ≤ 0 then ((max T 1 : ℕ) : ℚ)⁻¹
    else floorClip floorV (vals i) / (∑ k, floorClip floorV (vals k))

/-- `encounter_share`: column sums of `n_dir` restricted to the axis,
normalized. -/
def encounter_share {T : ℕ} (nT : PTable) (axisN : Fin T → String) : Fin T → ℚ :=
  normalizeWeights (fun j => colSumOf nT (axisN j)) none

/-- Largest value of a nonempty list (`np.nanmax`; the `[]` case is guarded by
the callers). -/
def listMax (l : List ℚ) : ℚ :=
  match l with
  | [] => 0
  | x :: xs => xs.foldl max x

/-- Smallest value of a nonempty list. -/
def listMin (l : List ℚ) : ℚ :=
  match l with
  | [] => 0
  | x :: xs => xs.foldl min x

/-- Percent auto-detection of `meta_share_on_axis`:
`if np.nanmax(shares) > 1 + 1e-9: shares /= 100`.  The table is modelled
post-extraction as `(deck name, numeric share)` rows (the flexible
deck/share column matching — and its fall-back to uniform when no usable
column exists — happens before this point). -/
def metaRowsScaled (rows : List (String × ℚ)) : List (String × ℚ) :=
  if 1 + 1/10^9 < listMax (rows.map (fun r => r.2)) then
    rows.map (fun r => (r.1, r.2 / 100))
  else rows

/-- `groupby(name).sum().reindex(axis).fillna(0)`: total share attributed to
axis entry `j`. -/
def metaOnAxis {T : ℕ} (axisN : Fin T → String) (rows : List (String × ℚ))
    (j : Fin T) : ℚ :=
  (((metaRowsScaled rows).filter (fun r => r.1 = axisN j)).map (fun r => r.2)).sum

/-- Gap redistribution weight for the three policies
(`uniform` / `encounter` / `proportional`). -/
def metaGapWeight {T : ℕ} (axisN : Fin T → String) (rows : List (String × ℚ))
    (p_enc : Fin T → ℚ) (policy : String) (j : Fin T) : ℚ :=
  if policy = "uniform" then (T : ℚ)⁻¹
  else if policy = "encounter" then
    p_enc j / (if 0 < ∑ k, p_enc k then ∑ k, p_enc k else 1)
  else metaOnAxis axisN rows j / (∑ k, metaOnAxis axisN rows k)

/-- The gap-filled (not yet renormalized) share vector `p + gap·w` of
`meta_share_on_axis` (equal to `p` when the gap is zero). -/
def metaP1 {T : ℕ} (axisN : Fin T → String) (rows : List (String × ℚ))
    (p_enc : Fin T → ℚ) (policy : String) (k : Fin T) : ℚ :=
  if 0 < max 0 (1 - ∑ k2, metaOnAxis axisN rows k2) then
    metaOnAxis axisN rows k +
      max 0 (1 - ∑ k2, metaOnAxis axisN rows k2) *
        metaGapWeight axisN rows p_enc policy k
  else metaOnAxis axisN rows k

/-- `meta_share_on_axis`: map top-meta shares to the axis; a missing/empty
table or zero on-axis mass falls back to uniform; a positive gap
`1 - s_on_axis` is redistributed by policy; the result is renormalized. -/
def meta_share_on_axis {T : ℕ} (axisN : Fin T → String)
    (top_meta : Option (List (String × ℚ))) (p_enc : Fin T → ℚ)
    (policy : String) : Fin T → ℚ := fun j =>
  match top_meta with
  | none => (T : ℚ)⁻¹
  | some rows =>
    if rows.isEmpty then (T : ℚ)⁻¹
    else if (∑ k, metaOnAxis axisN rows k) ≤ 0 then (T : ℚ)⁻¹
    else metaP1 axisN rows p_enc policy j / (∑ k, metaP1 axisN rows p_enc policy k)

/-- `tv = ½·Σ|p_meta - p_enc|` (total-variation distance). -/
def blendTV {T : ℕ} (nT : PTable) (axisN : Fin T → String)
    (top_meta : Option (List (String × ℚ))) (cfg : MARSConfig) : ℚ :=
  (∑ j, |meta_share_on_axis axisN top_meta (encounter_share nT axisN)
      cfg.META_GAP_POLICY j - encounter_share nT axisN j|) / 2

/-- Blend weight `γ`: fixed, or `clip(base + slope·tv, γ_min, γ_max)` in auto
mode. -/
def blendGamma {T : ℕ} (nT : PTable) (axisN : Fin T → String)
    (top_meta : Option (List (String × ℚ))) (cfg : MARSConfig) : ℚ :=
  if cfg.AUTO_GAMMA then
    clipQ (cfg.GAMMA_BASE + cfg.GAMMA_SLOPE * blendTV nT axisN top_meta cfg)
      cfg.GAMMA_MIN cfg.GAMMA_MAX
  else cfg.GAMMA_META_BLEND

/-- Auto mode floors the blend at `EPS` before normalizing. -/
def blendFloor (cfg : MARSConfig) : Option ℚ :=
  if cfg.AUTO_GAMMA then some cfg.EPS else none

/-- `blend_meta`: the normalized blend `(1-γ)·p_meta + γ·p_enc` together with
`γ` (the remaining entries of the returned info dict — policy, tv, safe
correlation — are log-only diagnostics). -/
def blend_meta {T : ℕ} (nT : PTable) (axisN : Fin T → String)
    (top_meta : Option (List (String × ℚ))) (cfg : MARSConfig) :
    (Fin T → ℚ) × ℚ :=
  (normalizeWeights
    (fun j =>
      (1 - blendGamma nT axisN top_meta cfg) *
        meta_share_on_axis axisN top_meta (encounter_share nT axisN)
          cfg.META_GAP_POLICY j +
      blendGamma nT axisN top_meta cfg * encounter_share nT axisN j)
    (blendFloor cfg),
   blendGamma nT axisN top_meta cfg)

/-- `_normalize_weights` always returns a vector summing to exactly 1 on a
nonempty axis. -/
theorem normalizeWeights_sum_one {T : ℕ} (hT : 0 < T) (vals : Fin T → ℚ)
    (floorV : Option ℚ) : ∑ j, normalizeWeights vals floorV j = 1 := by
  unfold normalizeWeights
  by_cases h : (∑ k, floorClip floorV (vals k)) ≤ 0
  · simp only [if_pos h, Finset.sum_const, Finset.card_univ, Fintype.card_fin,
      nsmul_eq_mul]
    rw [Nat.max_eq_left hT]
    rw [mul_inv_cancel₀ (Nat.cast_ne_zero.mpr (Nat.pos_iff_ne_zero.mp hT))]
  · simp only [if_neg h, ← Finset.sum_div]
    exact div_self (fun h0 => h (le_of_eq h0))

/-- `_normalize_weights` returns a nonnegative vector whenever the
(floor-clipped) inputs are nonnegative. -/
theorem normalizeWeights_nonneg {T : ℕ} (vals : Fin T → ℚ) (floorV : Option ℚ)
    (h : ∀ i, 0 ≤ floorClip floorV (vals i)) (j : Fin T) :
    0 ≤ normalizeWeights vals floorV j := by
  unfold normalizeWeights
  split
  · positivity
  · next hneg =>
    push_neg at hneg
    exact div_nonneg (h j) (le_of_lt hneg)

/-- The grouped on-axis meta shares are nonnegative when the table's share
values are. -/
theorem metaOnAxis_nonneg {T : ℕ} (axisN : Fin T → String)
    (rows : List (String × ℚ)) (hr : ∀ r ∈ rows, 0 ≤ r.2) (j : Fin T) :
    0 ≤ metaOnAxis axisN rows j := by
  unfold metaOnAxis
  apply List.sum_nonneg
  intro x hx
  obtain ⟨r, hrmem, hrx⟩ := List.mem_map.mp hx
  subst hrx
  have hmem := List.mem_filter.mp hrmem
  unfold metaRowsScaled at hmem
  rcases hmem with ⟨hmem, -⟩
  split at hmem
  · obtain ⟨r0, hr0, hr0e⟩ := List.mem_map.mp hmem
    subst hr0e
    have := hr r0 hr0
    positivity
  · exact hr r hmem

/-- The gap weight of each policy is nonnegative for nonnegative shares and
encounter weights. -/
theorem metaGapWeight_nonneg {T : ℕ} (axisN : Fin T → String)
    (rows : List (String × ℚ)) (p_enc : Fin T → ℚ) (policy : String)
    (hr : ∀ r ∈ rows, 0 ≤ r.2) (he : ∀ j, 0 ≤ p_enc j)
    (hson : 0 ≤ ∑ k, metaOnAxis axisN rows k) (k : Fin T) :
    0 ≤ metaGapWeight axisN rows p_enc policy k := by
  unfold metaGapWeight
  split
  · positivity
  · split
    · split
      · next hpe => exact div_nonneg (he k) (le_of_lt hpe)
      · simpa using he k
    · exact div_nonneg (metaOnAxis_nonneg axisN rows hr k) hson

/-- The gap-filled vector is nonnegative. -/
theorem metaP1_nonneg {T : ℕ} (axisN : Fin T → String)
    (rows : List (String × ℚ)) (p_enc : Fin T → ℚ) (policy : String)
    (hr : ∀ r ∈ rows, 0 ≤ r.2) (he : ∀ j, 0 ≤ p_enc j)
    (hson : 0 ≤ ∑ k, metaOnAxis axisN rows k) (k : Fin T) :
    0 ≤ metaP1 axisN rows p_enc policy k := by
  unfold metaP1
  split
  · next hgap =>
    have h1 := metaOnAxis_nonneg axisN rows hr k
    have h2 := metaGapWeight_nonneg axisN rows p_enc policy hr he hson k
    nlinarith [le_of_lt hgap]
  · exact metaOnAxis_nonneg axisN rows hr k

/-- `meta_share_on_axis` is nonnegative for nonnegative shares and
encounter weights. -/
theorem meta_share_on_axis_nonneg {T : ℕ} (axisN : Fin T → String)
    (top_meta : Option (List (String × ℚ))) (p_enc : Fin T → ℚ) (policy : String)
    (hs : ∀ rows, top_meta = some rows → ∀ r ∈ rows, 0 ≤ r.2)
    (he : ∀ j, 0 ≤ p_enc j) (j : Fin T) :
    0 ≤ meta_share_on_axis axisN top_meta p_enc policy j := by
  unfold meta_share_on_axis
  match htm : top_meta with
  | none => positivity
  | some rows =>
    have hr := hs rows rfl
    show 0 ≤ (if rows.isEmpty = true then ((T:ℚ))⁻¹
      else if (∑ k, metaOnAxis axisN rows k) ≤ 0 then ((T:ℚ))⁻¹
      else metaP1 axisN rows p_enc policy j /
        ∑ k, metaP1 axisN rows p_enc policy k)
    by_cases hemp : rows.isEmpty
    · rw [if_pos hemp]
      positivity
    · rw [if_neg hemp]
      by_cases hson : (∑ k, metaOnAxis axisN rows k) ≤ 0
      · rw [if_pos hson]
        positivity
      · rw [if_neg hson]
        push_neg at hson
        exact div_nonneg
          (metaP1_nonneg axisN rows p_enc policy hr he (le_of_lt hson) j)
          (Finset.sum_nonneg fun k _ =>
            metaP1_nonneg axisN rows p_enc policy hr he (le_of_lt hson) k)

/-- C8: on any axis of size ≥ 1, with nonnegative volumes and shares and a
blend weight `γ ∈ [0,1]`: `encounter_share` is nonnegative and sums to 1,
falling back to the uniform `1/T` vector when the column-sum total is `≤ 0`
(non-finiteness cannot arise over exact rationals); and the blended weight
vector of `blend_meta` is nonnegative and sums to 1. -/
theorem c8_weights_normalized {T : ℕ} (hT : 0 < T) (nT : PTable)
    (axisN : Fin T → String) (top_meta : Option (List (String × ℚ)))
    (cfg : MARSConfig)
    (hn : ∀ i j, 0 ≤ fill0 (nT.val i j))
    (hshare : ∀ rows, top_meta = some rows → ∀ r ∈ rows, 0 ≤ r.2)
    (hg0 : 0 ≤ (blend_meta nT axisN top_meta cfg).2)
    (hg1 : (blend_meta nT axisN top_meta cfg).2 ≤ 1)
    (heps : 0 ≤ cfg.EPS) :
    (∀ j, 0 ≤ encounter_share nT axisN j) ∧
    (∑ j, encounter_share nT axisN j) = 1 ∧
    ((∑ j, colSumOf nT (axisN j)) ≤ 0 →
      ∀ j, encounter_share nT axisN j = (T : ℚ)⁻¹) ∧
    (∀ j, 0 ≤ (blend_meta nT axisN top_meta cfg).1 j) ∧
    (∑ j, (blend_meta nT axisN top_meta cfg).1 j) = 1 := by
  have hcol : ∀ lab, 0 ≤ colSumOf nT lab := by
    intro lab
    unfold colSumOf
    split
    · exact le_refl 0
    · apply List.sum_nonneg
      intro x hx
      obtain ⟨i, -, hix⟩ := List.mem_map.mp hx
      subst hix
      exact hn _ _
  have henc : ∀ j, 0 ≤ encounter_share nT axisN j := fun j =>
    normalizeWeights_nonneg _ none (fun i => hcol _) j
  refine ⟨henc, normalizeWeights_sum_one hT _ none, ?_, ?_, ?_⟩
  · intro htot j
    unfold encounter_share normalizeWeights
    rw [if_pos (by simpa [floorClip] using htot)]
    rw [Nat.max_eq_left hT]
  · intro j
    show 0 ≤ normalizeWeights _ _ j
    apply normalizeWeights_nonneg
    intro i
    have hm : ∀ k, 0 ≤ meta_share_on_axis axisN top_meta
        (encounter_share nT axisN) cfg.META_GAP_POLICY k :=
      meta_share_on_axis_nonneg axisN top_meta _ _ hshare henc
    have hg0' : 0 ≤ blendGamma nT axisN top_meta cfg := hg0
    have hg1' : blendGamma nT axisN top_meta cfg ≤ 1 := hg1
    have hblend : 0 ≤ (1 - blendGamma nT axisN top_meta cfg) *
        meta_share_on_axis axisN top_meta (encounter_share nT axisN)
          cfg.META_GAP_POLICY i +
        blendGamma nT axisN top_meta cfg * encounter_share nT axisN i :=
      add_nonneg (mul_nonneg (by linarith) (hm i)) (mul_nonneg hg0' (henc i))
    unfold floorClip blendFloor
    split
    · next hauto =>
      split at hauto
      · cases hauto
      · exact hblend
    · next f hauto =>
      have hf : f = cfg.EPS := by
        split at hauto
        · cases hauto
          rfl
        · cases hauto
      subst hf
      exact le_max_of_le_right heps
  · exact normalizeWeights_sum_one hT _ _

/-- A small volume table for the C8 witness. -/
def c8nT : PTable := { idx := ["A", "B"], cols := ["A", "B"], val := fun _ _ => some 1 }

/-- Its two-deck axis. -/
def c8axis : Fin 2 → String := fun i => if i = 0 then "A" else "B"

/-- Witness for C8 at a concrete input (two decks, unit volumes, no meta
table, default configuration). -/
theorem c8_weights_normalized_witness :
    ((0:ℕ) < 2 ∧ (0:ℚ) ≤ (blend_meta c8nT c8axis none {}).2 ∧
      (blend_meta c8nT c8axis none {}).2 ≤ 1 ∧ (0:ℚ) ≤ ({} : MARSConfig).EPS) ∧
    (∑ j, encounter_share c8nT c8axis j) = 1 ∧
    0 ≤ encounter_share c8nT c8axis 0 ∧
    (∑ j, (blend_meta c8nT c8axis none {}).1 j) = 1 ∧
    0 ≤ (blend_meta c8nT c8axis none {}).1 0 := by
  have h := c8_weights_normalized (T := 2) (by norm_num) c8nT c8axis none {}
    (by intro i j; simp [c8nT, fill0])
    (by intro rows hrows; cases hrows)
    (by with_unfolding_all decide)
    (by with_unfolding_all decide)
    (by norm_num)
  exact ⟨⟨by norm_num, by with_unfolding_all decide, by with_unfolding_all decide,
      by norm_num⟩,
    h.2.1, h.1 0, h.2.2.2.2, h.2.2.2.1 0⟩

/-! ## NumPy helpers (rounding, sorting, percentiles) -/

/-- Python `round` / NumPy rounding: round half to even. -/
def pyRound (q : ℚ) : ℤ :=
  if q - ⌊q⌋ < 1/2 then ⌊q⌋
  else if 1/2 < q - ⌊q⌋ then ⌊q⌋ + 1
  else if ⌊q⌋ % 2 = 0 then ⌊q⌋ else ⌊q⌋ + 1

/-- Insertion into a sorted list. -/
def insSorted (x : ℚ) : List ℚ → List ℚ
  | [] => [x]
  | y :: ys => if x ≤ y then x :: y :: ys else y :: insSorted x ys

/-- Ascending insertion sort. -/
def sortQ (l : List ℚ) : List ℚ := l.foldr insSorted []

/-- `np.percentile(l, q)` with the default linear interpolation
(`h = (n-1)·q/100`, interpolate between the neighbouring order statistics).
The empty-list case (a NumPy error) returns 0 and is guarded by every
caller. -/
def percentileQ (l : List ℚ) (q : ℚ) : ℚ :=
  match sortQ l with
  | [] => 0
  | s =>
    let n := s.length
    let h := ((n : ℚ) - 1) * q / 100
    let lo := Int.toNat ⌊h⌋
    let hi := min (lo + 1) (n - 1)
    let a := s.getD lo 0
    let b := s.getD hi 0
    a + (h - ⌊h⌋) * (b - a)

/-- `np.median` (= the 50th percentile under linear interpolation). -/
def medianQ (l : List ℚ) : ℚ := percentileQ l 50

/-- `_hhi` (bt.py): Herfindahl index of a value list — NaN when the total is
not positive (non-finiteness cannot arise over ℚ). -/
def hhiOf (vals : List ℚ) : Cell :=
  if vals.sum ≤ 0 then none
  else some ((vals.map (fun v => (v / vals.sum) ^ 2)).sum)

/-! ## `src/mars/bt.py` — `bt_soft` -/

/-- `_s_of`: directional confidence `s = N/(N+K)` for `N > 0`, else 0. -/
def sOf (N K : ℚ) : ℚ := if 0 < N then N / (N + K) else 0

/-- `s_min = N_min/(N_min + K)`. -/
def sMinOf (cfg : MARSConfig) (K : ℚ) : ℚ :=
  (cfg.N_MIN_BT_TARGET : ℚ) / ((cfg.N_MIN_BT_TARGET : ℚ) + K)

/-- One kept edge of the pre-filter: the tuple
`(ai, aj, Nij, Nji, n_base, s_bar, p_bar)` of `info_kept`. -/
structure BTInfo (T : ℕ) where
  ai : Fin T
  aj : Fin T
  Nij : ℚ
  Nji : ℚ
  nBase : ℚ
  sBar : ℚ
  pBar : ℚ
deriving DecidableEq

/-- `n_base`: harmonic mean when enabled and both directions positive, else
the arithmetic mean of the positive directions (0 if none). -/
def btNBase (cfg : MARSConfig) (Nij Nji : ℚ) : ℚ :=
  if cfg.BT_USE_HARMONIC_N ∧ 0 < Nij ∧ 0 < Nji then (2 * Nij * Nji) / (Nij + Nji)
  else if 0 < Nij then (if 0 < Nji then (Nij + Nji) / 2 else Nij)
  else if 0 < Nji then Nji else 0

/-- Ordered pairs `i < j` in the double-loop order of the source. -/
def pairList (T : ℕ) : List (Fin T × Fin T) :=
  (List.finRange T).flatMap fun i =>
    ((List.finRange T).filter (fun j => decide (i < j))).map (fun j => (i, j))

/-- Outcome of one iteration of the pre-filter loop: `skip` for a pair with no
volume at all (`continue` before any counter), `drop` for a filtered pair
(counted in `edges_drop`), `keep` otherwise. -/
inductive EdgeCase (T : ℕ)
  | skip
  | drop
  | keep (e : BTInfo T)

/-- `s̄`: the mean of the positive directional confidences
(`[v for v in (s_ij, s_ji) if v > 0]`, 0 if none). -/
def btSBar (Nij Nji K : ℚ) : ℚ :=
  if 0 < sOf Nij K then
    (if 0 < sOf Nji K then (sOf Nij K + sOf Nji K) / 2 else sOf Nij K)
  else (if 0 < sOf Nji K then sOf Nji K else 0)

/-- The pre-filter body for one unordered pair: confidence average, `s_min`
threshold, reconciled probability `p̄` by the definedness of the two `p_hat`
directions, and `n_base`. -/
def btEdge {T : ℕ} (n_dir : Fin T → Fin T → ℚ) (p_hat : Fin T → Fin T → Cell)
    (K : ℚ) (cfg : MARSConfig) (i j : Fin T) : EdgeCase T :=
  if n_dir i j ≤ 0 ∧ n_dir j i ≤ 0 then .skip
  else if btSBar (n_dir i j) (n_dir j i) K < sMinOf cfg K then .drop
  else
    match p_hat i j, p_hat j i with
    | some p1, some p2 =>
      .keep ⟨i, j, n_dir i j, n_dir j i, btNBase cfg (n_dir i j) (n_dir j i),
        btSBar (n_dir i j) (n_dir j i) K, (p1 + (1 - p2)) / 2⟩
    | some p1, none =>
      .keep ⟨i, j, n_dir i j, n_dir j i, btNBase cfg (n_dir i j) (n_dir j i),
        btSBar (n_dir i j) (n_dir j i) K, p1⟩
    | none, some p2 =>
      .keep ⟨i, j, n_dir i j, n_dir j i, btNBase cfg (n_dir i j) (n_dir j i),
        btSBar (n_dir i j) (n_dir j i) K, 1 - p2⟩
    | none, none => .drop

/-- `info_kept`, in loop order. -/
def btInfoKept {T : ℕ} (n_dir : Fin T → Fin T → ℚ) (p_hat : Fin T → Fin T → Cell)
    (K : ℚ) (cfg : MARSConfig) : List (BTInfo T) :=
  (pairList T).filterMap fun pr =>
    match btEdge n_dir p_hat K cfg pr.1 pr.2 with
    | .keep e => some e
    | _ => none

/-- `edges_drop`. -/
def btDropped {T : ℕ} (n_dir : Fin T → Fin T → ℚ) (p_hat : Fin T → Fin T → Cell)
    (K : ℚ) (cfg : MARSConfig) : ℕ :=
  ((pairList T).filter fun pr =>
    match btEdge n_dir p_hat K cfg pr.1 pr.2 with
    | .drop => true
    | _ => false).length

/-- Number of kept edges touching a deck (`deck_counts`). -/
def btOppCount {T : ℕ} (kept : List (BTInfo T)) (d : Fin T) : ℕ :=
  (kept.filter (fun e => e.ai = d || e.aj = d)).length

/-- `int(opp_counts.min()) if len(opp_counts) else 0`. -/
def btMinOpp {T : ℕ} (kept : List (BTInfo T)) : ℕ :=
  match (List.finRange T).map (btOppCount kept) with
  | [] => 0
  | x :: xs => xs.foldl min x

/-- `np.clip(x, 0, 1)`. -/
def clip01 (x : ℚ) : ℚ := min (max x 0) 1

/-- Soft exponent `γ_soft`: fixed from the config, or the continuous automatic
rule `clip(1.5 + 0.4·x1 + 0.2·x2 + 0.2·x3 + 0.1·x4, 1.5, 2.1)` (only evaluated
when at least one edge was kept; the `kept = []` readings of the medians here
differ from NumPy's NaN propagation but are never consumed, since `bt_soft`
returns the 0.5-fallback first). -/
def btSoftPower {T : ℕ} (cfg : MARSConfig) (K : ℚ) (kept : List (BTInfo T)) : ℚ :=
  match cfg.BT_SOFT_POWER with
  | some v => v
  | none =>
    let sbars := kept.map (fun e => e.sBar)
    let smin := sMinOf cfg K
    let nearShare : ℚ :=
      if sbars.length = 0 then 0
      else ((sbars.filter (fun s =>
        decide (smin ≤ s) && decide (s < smin + cfg.BT_NEAR_BAND))).length : ℚ) /
        (sbars.length : ℚ)
    let sbarMed := medianQ sbars
    let lev := kept.map (fun e => max e.nBase (1/10^12) * |e.pBar - 1/2|)
    let hhi : ℚ :=
      match hhiOf lev with
      | none => 1/10
      | some v => v
    let x1 := clip01 ((nearShare - 3/20) / (3/20))
    let x2 := clip01 ((3/5 - sbarMed) / (1/10))
    let x3 := clip01 ((hhi - 1/10) / (1/20))
    let x4 := clip01 ((8 - (btMinOpp kept : ℚ)) / 5)
    min (max (3/2 + (2/5) * x1 + (1/5) * x2 + (1/5) * x3 + (1/10) * x4) (3/2)) (21/10)

/-- One entry of `pairs_bt`: `(ai, aj, n_eff, w_ij, w_ji)`. -/
structure BTPair (T : ℕ) where
  ai : Fin T
  aj : Fin T
  nEff : ℚ
  wij : ℚ
  wji : ℚ
deriving DecidableEq

/-- `np.clip(p_bar, 1e-9, 1 - 1e-9)`. -/
def clipP (p : ℚ) : ℚ := min (max p (1/10^9)) (1 - 1/10^9)

/-- Soft effective weights and the pseudo-win split:
`n_eff = max(n_base·s̄^γ, 1e-9)`, `w_ij = p̄·n_eff`, `w_ji = (1-p̄)·n_eff`
(the power `s̄^γ` goes through the explicit `powQ` parameter). -/
def btPairsOf {T : ℕ} (powQ : ℚ → ℚ → ℚ) (softPower : ℚ)
    (kept : List (BTInfo T)) : List (BTPair T) :=
  kept.map fun e =>
    { ai := e.ai, aj := e.aj
      nEff := max (e.nBase * powQ e.sBar softPower) (1/10^9)
      wij := clipP e.pBar * max (e.nBase * powQ e.sBar softPower) (1/10^9)
      wji := (1 - clipP e.pBar) * max (e.nBase * powQ e.sBar softPower) (1/10^9) }

/-- The two `raise AssertionError` guards of the pseudo-win split. -/
def btAssertViolated {T : ℕ} (ps : List (BTPair T)) : Prop :=
  ∃ p ∈ ps, (1/10^6 : ℚ) < |p.wij + p.wji - p.nEff| ∨
    ¬ (0 < p.wij ∧ p.wij < p.nEff ∧ 0 < p.wji ∧ p.wji < p.nEff)

/-- `wins_out[i]` plus nothing: the soft win total flowing into deck `i`. -/
def btWins {T : ℕ} (ps : List (BTPair T)) (i : Fin T) : ℚ :=
  (ps.map (fun p => (if p.ai = i then p.wij else 0) + (if p.aj = i then p.wji else 0))).sum

/-- The MM denominator `Σ n_eff/(π_i + π_j + 1e-12)` over the opponents of `i`. -/
def btDenom {T : ℕ} (ps : List (BTPair T)) (piv : Fin T → ℚ) (i : Fin T) : ℚ :=
  (ps.map fun p =>
    if p.ai = i then p.nEff / (piv i + piv p.aj + 1/10^12)
    else if p.aj = i then p.nEff / (piv i + piv p.ai + 1/10^12)
    else 0).sum

/-- One MM sweep: the Jacobi update
`(wins + λ)/(denom + λ + 1e-12)` from the previous iterate, clamped at 1e-8,
together with `max_rel` (measured on the unclamped update, as in the source). -/
def btStep {T : ℕ} (cfg : MARSConfig) (ps : List (BTPair T)) (piv : Fin T → ℚ) :
    (Fin T → ℚ) × ℚ :=
  ((fun i => max ((btWins ps i + cfg.LAMBDA_RIDGE) /
      (btDenom ps piv i + cfg.LAMBDA_RIDGE + 1/10^12)) (1/10^8)),
   (List.finRange T).foldl (fun acc i =>
     max acc (|(btWins ps i + cfg.LAMBDA_RIDGE) /
        (btDenom ps piv i + cfg.LAMBDA_RIDGE + 1/10^12) - piv i| /
       (piv i + 1/10^9))) 0)

/-- The MM loop with its convergence break (`max_rel < BT_TOL`), fuelled by
the iteration cap (reaching the cap is not an error). -/
def btLoop {T : ℕ} (cfg : MARSConfig) (ps : List (BTPair T)) :
    ℕ → (Fin T → ℚ) → (Fin T → ℚ)
  | 0, piv => piv
  | fuel + 1, piv =>
    if (btStep cfg ps piv).2 < cfg.BT_TOL then (btStep cfg ps piv).1
    else btLoop cfg ps fuel (btStep cfg ps piv).1

/-- The same sweep iterated exactly `k` times (no break), to state the
iteration-count bound. -/
def btIter {T : ℕ} (cfg : MARSConfig) (ps : List (BTPair T)) :
    ℕ → (Fin T → ℚ) → (Fin T → ℚ)
  | 0, piv => piv
  | fuel + 1, piv => btIter cfg ps fuel (btStep cfg ps piv).1

/-- The ability vector after the loop, from the all-ones start. -/
def btPiFinal {T : ℕ} (cfg : MARSConfig) (ps : List (BTPair T)) : Fin T → ℚ :=
  btLoop cfg ps cfg.MAX_BT_ITER (fun _ => 1)

/-- `theta = log(pi / (gmean + 1e-12))` with `gmean = exp(mean(log π))`,
through the explicit `expQ`/`logQ` parameters. -/
def btTheta {T : ℕ} (expQ logQ : ℚ → ℚ) (cfg : MARSConfig) (ps : List (BTPair T))
    (i : Fin T) : ℚ :=
  logQ (btPiFinal cfg ps i /
    (expQ ((∑ k, logQ (btPiFinal cfg ps k)) / T) + 1/10^12))

/-- `t_std = np.std(theta) if np.std(theta) > 0 else 1.0`. -/
def btTstd {T : ℕ} (expQ logQ sqrtQ : ℚ → ℚ) (cfg : MARSConfig)
    (ps : List (BTPair T)) : ℚ :=
  if 0 < sqrtQ (popVar (btTheta expQ logQ cfg ps)) then
    sqrtQ (popVar (btTheta expQ logQ cfg ps))
  else 1

/-- `bt_prob = 1/(1 + exp(-theta/t_std))`, scaled to percent. -/
def btPctOf {T : ℕ} (expQ logQ sqrtQ : ℚ → ℚ) (cfg : MARSConfig)
    (ps : List (BTPair T)) : Fin T → ℚ := fun i =>
  100 * (1 / (1 + expQ (-(btTheta expQ logQ cfg ps i) /
    btTstd expQ logQ sqrtQ cfg ps)))

/-- The outputs of `bt_soft` consumed downstream. -/
structure BTOut (T : ℕ) where
  bt_pct : Fin T → ℚ
  kept : ℕ
  dropped : ℕ
  pairs : List (BTPair T)

/-- `bt_soft` top level: the 0.5-fallback when no edge survives the
pre-filter, otherwise the soft-weighted MM fit mapped to percent. -/
def bt_soft {T : ℕ} (powQ : ℚ → ℚ → ℚ) (expQ logQ sqrtQ : ℚ → ℚ)
    (n_dir : Fin T → Fin T → ℚ) (p_hat : Fin T → Fin T → Cell) (K : ℚ)
    (cfg : MARSConfig) : BTOut T :=
  if (btInfoKept n_dir p_hat K cfg).length = 0 then
    { bt_pct := fun _ => 50, kept := 0
      dropped := btDropped n_dir p_hat K cfg, pairs := [] }
  else
    { bt_pct := btPctOf expQ logQ sqrtQ cfg
        (btPairsOf powQ (btSoftPower cfg K (btInfoKept n_dir p_hat K cfg))
          (btInfoKept n_dir p_hat K cfg))
      kept := (btInfoKept n_dir p_hat K cfg).length
      dropped := btDropped n_dir p_hat K cfg
      pairs := btPairsOf powQ (btSoftPower cfg K (btInfoKept n_dir p_hat K cfg))
        (btInfoKept n_dir p_hat K cfg) }

/-- The clip keeps `p̄` strictly inside `(0,1)`. -/
theorem clipP_bounds (p : ℚ) : 1/10^9 ≤ clipP p ∧ clipP p ≤ 1 - 1/10^9 := by
  unfold clipP
  constructor
  · apply le_min
    · exact le_max_right _ _
    · norm_num
  · exact min_le_right _ _

/-- C4: for every edge kept by the pre-filter and any soft exponent, the
pseudo-win split satisfies `w_ij + w_ji = n_eff` exactly (hence within the
1e-6 tolerance) with both components strictly inside `(0, n_eff)`, so the
fatal internal-consistency assertion of `bt_soft` can never be raised. -/
theorem c4_bt_pseudo_win_invariant {T : ℕ} (powQ : ℚ → ℚ → ℚ) (softPower : ℚ)
    (n_dir : Fin T → Fin T → ℚ) (p_hat : Fin T → Fin T → Cell) (K : ℚ)
    (cfg : MARSConfig) :
    (∀ p ∈ btPairsOf powQ softPower (btInfoKept n_dir p_hat K cfg),
      p.wij + p.wji = p.nEff ∧ |p.wij + p.wji - p.nEff| ≤ 1/10^6 ∧
      0 < p.wij ∧ p.wij < p.nEff ∧ 0 < p.wji ∧ p.wji < p.nEff) ∧
    ¬ btAssertViolated (btPairsOf powQ softPower (btInfoKept n_dir p_hat K cfg)) := by
  have hmem : ∀ p ∈ btPairsOf powQ softPower (btInfoKept n_dir p_hat K cfg),
      p.wij + p.wji = p.nEff ∧ |p.wij + p.wji - p.nEff| ≤ 1/10^6 ∧
      0 < p.wij ∧ p.wij < p.nEff ∧ 0 < p.wji ∧ p.wji < p.nEff := by
    intro p hp
    obtain ⟨e, -, hpe⟩ := List.mem_map.mp hp
    subst hpe
    simp only
    obtain ⟨hc0, hc1⟩ := clipP_bounds e.pBar
    set nE := max (e.nBase * powQ e.sBar softPower) (1/10^9) with hnE
    have hnE0 : (0:ℚ) < nE := lt_of_lt_of_le (by norm_num) (le_max_right _ _)
    refine ⟨by ring, ?_, ?_, ?_, ?_, ?_⟩
    · rw [show clipP e.pBar * nE + (1 - clipP e.pBar) * nE - nE = 0 by ring]
      norm_num
    · apply mul_pos _ hnE0
      linarith
    · nlinarith
    · apply mul_pos _ hnE0
      linarith
    · nlinarith
  refine ⟨hmem, ?_⟩
  intro hviol
  obtain ⟨p, hp, hor⟩ := hviol
  obtain ⟨heq, htol, h1, h2, h3, h4⟩ := hmem p hp
  rcases hor with h | h
  · exact absurd htol (not_le.mpr h)
  · exact h ⟨h1, h2, h3, h4⟩

/-- Each MM sweep clamps every ability at 1e-8. -/
theorem btStep_lower {T : ℕ} (cfg : MARSConfig) (ps : List (BTPair T))
    (piv : Fin T → ℚ) (i : Fin T) : 1/10^8 ≤ (btStep cfg ps piv).1 i := by
  simp only [btStep]
  exact le_max_right _ _

/-- Every iterate of the MM loop stays at or above the 1e-8 clamp. -/
theorem btLoop_lower {T : ℕ} (cfg : MARSConfig) (ps : List (BTPair T)) :
    ∀ fuel (piv : Fin T → ℚ), (∀ i, 1/10^8 ≤ piv i) →
      ∀ i, 1/10^8 ≤ btLoop cfg ps fuel piv i := by
  intro fuel
  induction fuel with
  | zero => exact fun piv h i => h i
  | succ n ih =>
    intro piv h i
    unfold btLoop
    split
    · exact btStep_lower cfg ps piv i
    · exact ih _ (btStep_lower cfg ps piv) i

/-- The loop performs at most `fuel` sweeps: it equals the break-free
iteration at some count `k ≤ fuel`. -/
theorem btLoop_eq_iter {T : ℕ} (cfg : MARSConfig) (ps : List (BTPair T)) :
    ∀ fuel (piv : Fin T → ℚ),
      ∃ k ≤ fuel, btLoop cfg ps fuel piv = btIter cfg ps k piv := by
  intro fuel
  induction fuel with
  | zero => exact fun piv => ⟨0, le_refl 0, rfl⟩
  | succ n ih =>
    intro piv
    unfold btLoop
    split
    · exact ⟨1, by omega, rfl⟩
    · obtain ⟨k, hk, he⟩ := ih (btStep cfg ps piv).1
      exact ⟨k + 1, by omega, he⟩

/-- C10: in `bt_soft`'s MM loop every ability stays clamped at `≥ 1e-8`
(hence strictly positive) across all iterations from the all-ones start, the
loop performs at most `MAX_BT_ITER` sweeps, and — because `exp` is strictly
positive — the logistic map produces `BT_%` strictly inside `(0,100)` for
every deck (the zero-edges fallback value 50 included). -/
theorem c10_bt_positive_bounded {T : ℕ} (powQ : ℚ → ℚ → ℚ)
    (expQ logQ sqrtQ : ℚ → ℚ) (n_dir : Fin T → Fin T → ℚ)
    (p_hat : Fin T → Fin T → Cell) (K : ℚ) (cfg : MARSConfig)
    (hexp : ∀ x, 0 < expQ x) :
    (∀ ps : List (BTPair T), ∀ i,
      1/10^8 ≤ btPiFinal cfg ps i ∧ 0 < btPiFinal cfg ps i) ∧
    (∀ ps : List (BTPair T), ∃ k ≤ cfg.MAX_BT_ITER,
      btPiFinal cfg ps = btIter cfg ps k (fun _ => 1)) ∧
    (∀ i, 0 < (bt_soft powQ expQ logQ sqrtQ n_dir p_hat K cfg).bt_pct i ∧
      (bt_soft powQ expQ logQ sqrtQ n_dir p_hat K cfg).bt_pct i < 100) := by
  have hlow : ∀ (ps : List (BTPair T)) i, 1/10^8 ≤ btPiFinal cfg ps i := by
    intro ps i
    exact btLoop_lower cfg ps cfg.MAX_BT_ITER (fun _ => 1) (fun _ => by norm_num) i
  have hpct : ∀ (ps : List (BTPair T)) i,
      0 < btPctOf expQ logQ sqrtQ cfg ps i ∧
      btPctOf expQ logQ sqrtQ cfg ps i < 100 := by
    intro ps i
    unfold btPctOf
    have he := hexp (-(btTheta expQ logQ cfg ps i) / btTstd expQ logQ sqrtQ cfg ps)
    have h1 : (0:ℚ) < 1 + expQ (-(btTheta expQ logQ cfg ps i) /
        btTstd expQ logQ sqrtQ cfg ps) := by linarith
    constructor
    · have : (0:ℚ) < 1 / (1 + expQ (-(btTheta expQ logQ cfg ps i) /
          btTstd expQ logQ sqrtQ cfg ps)) := by positivity
      linarith
    · have : 1 / (1 + expQ (-(btTheta expQ logQ cfg ps i) /
          btTstd expQ logQ sqrtQ cfg ps)) < 1 := by
        rw [div_lt_one h1]
        linarith
      linarith
  refine ⟨fun ps i => ⟨hlow ps i, lt_of_lt_of_le (by norm_num) (hlow ps i)⟩,
    fun ps => btLoop_eq_iter cfg ps cfg.MAX_BT_ITER (fun _ => 1), ?_⟩
  intro i
  unfold bt_soft
  split
  · constructor <;> norm_num
  · exact hpct _ i

/-- Witness for C10 at a concrete two-deck input with no volume: the
pre-filter keeps nothing and the fallback `BT_% = 50` lies strictly inside
`(0,100)`. -/
theorem c10_bt_positive_bounded_witness :
    (∀ x : ℚ, 0 < (fun _ : ℚ => (1:ℚ)) x) ∧
    (0 < (bt_soft (fun _ _ => 1) (fun _ => 1) (fun _ => 0) (fun _ => 0)
        (fun _ _ : Fin 2 => (0:ℚ)) (fun _ _ => none) 1 {}).bt_pct 0 ∧
      (bt_soft (fun _ _ => 1) (fun _ => 1) (fun _ => 0) (fun _ => 0)
        (fun _ _ : Fin 2 => (0:ℚ)) (fun _ _ => none) 1 {}).bt_pct 0 < 100) ∧
    (bt_soft (fun _ _ => 1) (fun _ => 1) (fun _ => 0) (fun _ => 0)
        (fun _ _ : Fin 2 => (0:ℚ)) (fun _ _ => none) 1 {}).bt_pct 0 = 50 := by
  refine ⟨fun x => by norm_num, ?_, ?_⟩
  · exact (c10_bt_positive_bounded (fun _ _ => 1) (fun _ => 1) (fun _ => 0)
      (fun _ => 0) (fun _ _ : Fin 2 => (0:ℚ)) (fun _ _ => none) 1 {}
      (fun x => by norm_num)).2.2 0
  · with_unfolding_all rfl

/-- Off-diagonal cells of the posterior mean are always defined. -/
theorem posterior_p_hat_off {T : ℕ} (S F : Fin T → Fin T → Cell) (K : ℚ)
    (cfg : MARSConfig) {i j : Fin T} (h : i ≠ j) :
    (posterior_dir S F K cfg).p_hat i j =
      some ((fill0 (S i j) + cfg.MU * K) /
        ((fill0 (S i j) + cfg.MU * K) + (fill0 (F i j) + (1 - cfg.MU) * K))) := by
  simp only [posterior_dir, if_neg h]

/-- Every pair produced by the double loop is strictly ordered. -/
theorem pairList_lt {T : ℕ} : ∀ pr ∈ pairList T, pr.1 < pr.2 := by
  intro pr hpr
  unfold pairList at hpr
  simp only [List.mem_flatMap, List.mem_map, List.mem_filter,
    decide_eq_true_eq] at hpr
  obtain ⟨i, -, j, ⟨-, hij⟩, hpre⟩ := hpr
  rw [← hpre]
  exact hij

/-- A kept edge with both `p_hat` directions defined always carries the
averaged reconciled probability. -/
theorem btEdge_keep_avg {T : ℕ} (n_dir : Fin T → Fin T → ℚ)
    (ph : Fin T → Fin T → Cell) (K : ℚ) (cfg : MARSConfig) (i j : Fin T)
    (e : BTInfo T) (p1 p2 : ℚ) (h1 : ph i j = some p1) (h2 : ph j i = some p2)
    (hk : btEdge n_dir ph K cfg i j = .keep e) :
    e.ai = i ∧ e.aj = j ∧ e.pBar = (p1 + (1 - p2)) / 2 := by
  unfold btEdge at hk
  rw [h1, h2] at hk
  split at hk
  · cases hk
  · split at hk
    · cases hk
    · cases hk
      exact ⟨rfl, rfl, rfl⟩

/-- C2 (amended): with `p_hat` produced by `posterior_dir`, every off-diagonal
cell is defined — the unobserved direction receives the prior-pulled value —
so every kept pair of the BT pre-filter takes the averaging branch:
`p̄ = ½·(p_hat[A,B] + (1 − p_hat[B,A]))`, even when only one direction has
observed volume.  The single-direction branches fire only for a NaN `p_hat`
cell, which `posterior_dir` never emits off-diagonal. -/
theorem c2_pbar_amended {T : ℕ} (S F : Fin T → Fin T → Cell) (K : ℚ)
    (cfgP cfgB : MARSConfig) (n_dir : Fin T → Fin T → ℚ) :
    ∀ e ∈ btInfoKept n_dir (posterior_dir S F K cfgP).p_hat K cfgB,
      ∃ p1 p2 : ℚ,
        (posterior_dir S F K cfgP).p_hat e.ai e.aj = some p1 ∧
        (posterior_dir S F K cfgP).p_hat e.aj e.ai = some p2 ∧
        e.pBar = (p1 + (1 - p2)) / 2 := by
  intro e he
  unfold btInfoKept at he
  obtain ⟨pr, hpr, hee⟩ := List.mem_filterMap.mp he
  have hlt := pairList_lt pr hpr
  have hne : pr.1 ≠ pr.2 := ne_of_lt hlt
  have hk : btEdge n_dir (posterior_dir S F K cfgP).p_hat K cfgB pr.1 pr.2 =
      .keep e := by
    revert hee
    cases btEdge n_dir (posterior_dir S F K cfgP).p_hat K cfgB pr.1 pr.2 with
    | skip => intro hee; cases hee
    | drop => intro hee; cases hee
    | keep e2 => intro hee; cases hee; rfl
  obtain ⟨ha, hb, hp⟩ := btEdge_keep_avg n_dir _ K cfgB pr.1 pr.2 e _ _
    (posterior_p_hat_off S F K cfgP hne)
    (posterior_p_hat_off S F K cfgP (Ne.symm hne)) hk
  rw [ha, hb]
  exact ⟨_, _, posterior_p_hat_off S F K cfgP hne,
    posterior_p_hat_off S F K cfgP (Ne.symm hne), hp⟩

/-! C2 concrete instance: two decks, `W[0,1] = 5`, `L[0,1] = 0`, nothing in the
reverse direction, `K = 1`, default configuration (`N_MIN_BT_TARGET = 5`, so
`s_min = 5/6 = s̄` and the pair is kept). -/

/-- Wins matrix of the C2 instance. -/
def c2S : Fin 2 → Fin 2 → Cell := fun i j =>
  if i = 0 ∧ j = 1 then some 5 else none

/-- Losses matrix of the C2 instance. -/
def c2F : Fin 2 → Fin 2 → Cell := fun i j =>
  if i = 0 ∧ j = 1 then some 0 else none

/-- `N = S.fillna(0) + F.fillna(0)`. -/
def c2n : Fin 2 → Fin 2 → ℚ := fun i j => fill0 (c2S i j) + fill0 (c2F i j)

/-- C2 counterexample: the pair `{0,1}` has volume in *exactly one* direction
(`N[0,1] = 5 > 0`, `N[1,0] = 0`), is kept by the pre-filter, and its
`p_hat[0,1] = 11/12`; the claim demands `p̄ = 11/12`, but the code reconciles
with the prior-filled reverse cell (`p_hat[1,0] = 1/2`) and produces
`p̄ = 17/24 ≠ 11/12`. -/
theorem c2_pbar_counterexample :
    0 < c2n 0 1 ∧ c2n 1 0 ≤ 0 ∧
    (posterior_dir c2S c2F 1 {}).p_hat 0 1 = some (11/12) ∧
    (posterior_dir c2S c2F 1 {}).p_hat 1 0 = some (1/2) ∧
    btInfoKept c2n (posterior_dir c2S c2F 1 {}).p_hat 1 {} =
      [⟨0, 1, 5, 0, 5, 5/6, 17/24⟩] ∧
    ¬ ((17:ℚ)/24 = 11/12) := by
  with_unfolding_all decide

/-- Witness for C2 (amended) at the same concrete instance. -/
theorem c2_pbar_witness :
    (⟨0, 1, 5, 0, 5, 5/6, 17/24⟩ : BTInfo 2) ∈
      btInfoKept c2n (posterior_dir c2S c2F 1 {}).p_hat 1 {} ∧
    (∃ p1 p2 : ℚ,
      (posterior_dir c2S c2F 1 {}).p_hat
        (⟨0, 1, 5, 0, 5, 5/6, 17/24⟩ : BTInfo 2).ai
        (⟨0, 1, 5, 0, 5, 5/6, 17/24⟩ : BTInfo 2).aj = some p1 ∧
      (posterior_dir c2S c2F 1 {}).p_hat
        (⟨0, 1, 5, 0, 5, 5/6, 17/24⟩ : BTInfo 2).aj
        (⟨0, 1, 5, 0, 5, 5/6, 17/24⟩ : BTInfo 2).ai = some p2 ∧
      (⟨0, 1, 5, 0, 5, 5/6, 17/24⟩ : BTInfo 2).pBar = (p1 + (1 - p2)) / 2) := by
  have hmem : (⟨0, 1, 5, 0, 5, 5/6, 17/24⟩ : BTInfo 2) ∈
      btInfoKept c2n (posterior_dir c2S c2F 1 {}).p_hat 1 {} := by
    with_unfolding_all decide
  exact ⟨hmem, c2_pbar_amended c2S c2F 1 {} {} c2n _ hmem⟩

/-! ## `src/mars/auto_k_cv.py` — `auto_k_cv` -/

/-- `np.unique`: ascending sort with duplicate removal. -/
def dedupSort (l : List ℚ) : List ℚ := (sortQ l).dedup

/-- `_split_counts`: deterministic per-cell train/test split
`(Wtr, Ltr, Wte, Lte)`.  All Python `int(round(·))` conversions use
round-half-even. -/
def splitCounts (W0 L0 rho : ℚ) : ℤ × ℤ × ℤ × ℤ :=
  let W := pyRound W0
  let L := pyRound L0
  let N := W + L
  if N ≤ 0 then (0, 0, 0, 0)
  else
    let tt0 := pyRound (rho * (N : ℚ))
    let tt := if 4 ≤ N then max tt0 2 else tt0
    let test := min (max 1 tt) (max 0 (N - 1))
    let Wte := max 0 (min (pyRound ((test : ℚ) * ((W : ℚ) / (N : ℚ)))) W)
    let Lte := max 0 (min (test - Wte) L)
    let Wtr := W - Wte
    let Ltr := L - Lte
    if Wtr + Ltr ≤ 0 ∧ 1 < N then
      (if Lte ≤ Wte ∧ 0 < Wte then (Wtr + 1, Ltr, Wte - 1, Lte)
       else if 0 < Lte then (Wtr, Ltr + 1, Wte, Lte - 1)
       else (Wtr, Ltr, Wte, Lte))
    else (Wtr, Ltr, Wte, Lte)

/-- Row-major list of the observed off-diagonal cells (`mask_obs` raveled). -/
def obsCells {T : ℕ} (N : Fin T → Fin T → Cell) : List (Fin T × Fin T) :=
  (List.finRange T).flatMap fun i =>
    ((List.finRange T).filter
      (fun j => decide (i ≠ j) && decide (0 < fill0 (N i j)))).map (fun j => (i, j))

/-- `_logB`: the log-Beta function through the explicit `lgamma` parameter. -/
def logB (lg : ℚ → ℚ) (x y : ℚ) : ℚ := lg x + lg y - lg (x + y)

/-- `ll_pred_total`: `none` models the `-inf` sentinel for an unusable `K`/`μ`;
otherwise the sum of the held-out Beta-Binomial log-predictive terms over the
given cell indices. -/
def llPredTotal (lg : ℚ → ℚ) (MU : ℚ) (splits : List (ℤ × ℤ × ℤ × ℤ))
    (idx : List ℕ) (K : ℚ) : Option ℚ :=
  if ¬ (0 < K ∧ 0 < MU ∧ MU < 1) then none
  else if MU * K ≤ 0 ∨ (1 - MU) * K ≤ 0 then none
  else some ((idx.map fun i =>
    match splits.getD i (0, 0, 0, 0) with
    | (Wtr, Ltr, Wte, Lte) =>
      if Wte + Lte ≤ 0 then 0
      else
        logB lg ((Wte : ℚ) + (MU * K + (Wtr : ℚ)))
            ((Lte : ℚ) + ((1 - MU) * K + (Ltr : ℚ))) -
          logB lg (MU * K + (Wtr : ℚ)) ((1 - MU) * K + (Ltr : ℚ))).sum)

/-- Strict order on log-likelihood values with `-inf = none` at the bottom. -/
def obLt (a b : Option ℚ) : Bool :=
  match a, b with
  | none, some _ => true
  | none, none => false
  | some _, none => false
  | some x, some y => decide (x < y)

/-- The largest log-likelihood value of a list (`-inf` for an empty or
all-`-inf` list). -/
def obMaxFold (l : List (Option ℚ)) : Option ℚ :=
  l.foldl (fun acc v => if obLt acc v then v else acc) none

/-- Tie-break: the first (smallest) index whose log-likelihood lies within the
relative tolerance of the maximum — `none` when every value is `-inf` (where
the source would fail on `min([])`). -/
def tieBest (ll : List (Option ℚ)) (relTol : ℚ) : Option ℕ :=
  match obMaxFold ll with
  | none => none
  | some m =>
    ((List.range ll.length).filter fun i =>
      match ll.getD i none with
      | none => false
      | some v => decide (m - v ≤ relTol * max 1 |m|)).head?

/-- Selection over a grid: evaluate, take the maximum, tie-break to the
smallest `K`. -/
def selectOn (llf : ℚ → Option ℚ) (grid : List ℚ) (relTol : ℚ) :
    Option (ℕ × ℚ) :=
  match tieBest (grid.map llf) relTol with
  | none => none
  | some b => some (b, grid.getD b 0)

/-- The downward grid-expansion loop (at most 2 extensions): while the
selection sits at the grid minimum and the floor has not been reached, extend
the grid with `max(gridmin/2, floorK)` and re-select. -/
def expandGo (llf : ℚ → Option ℚ) (floorK relTol : ℚ) :
    ℕ → List ℚ → ℕ → ℚ → ℕ → Option (List ℚ × ℕ × ℚ × ℕ)
  | 0, grid, bi, ks, exps => some (grid, bi, ks, exps)
  | fuel + 1, grid, bi, ks, exps =>
    if bi = 0 ∧ floorK + 1/10^12 < listMin grid then
      match selectOn llf (dedupSort (max (listMin grid / 2) floorK :: grid))
          relTol with
      | none => none
      | some (bi2, ks2) =>
        expandGo llf floorK relTol fuel
          (dedupSort (max (listMin grid / 2) floorK :: grid)) bi2 ks2 (exps + 1)
    else some (grid, bi, ks, exps)

/-- `argmax_smallest` over `(K, LL)` pairs in ascending-`K` order: the
smallest `K` attaining the maximal log-likelihood. -/
def argmaxSmallest (kvs : List (ℚ × Option ℚ)) : ℚ :=
  match kvs with
  | [] => 0
  | kv0 :: rest =>
    (rest.foldl (fun best kv => if obLt best.2 kv.2 then kv else best) kv0).1

/-- The observed volumes `N_vec`. -/
def autoKNvec {T : ℕ} (N : Fin T → Fin T → Cell) : List ℚ :=
  (obsCells N).map fun c => fill0 (N c.1 c.2)

/-- `beta_auto = sqrt(max(median(N),1) · max(p75(N),1))`. -/
def autoKBeta {T : ℕ} (sqrtQ : ℚ → ℚ) (N : Fin T → Fin T → Cell) : ℚ :=
  sqrtQ (max (medianQ (autoKNvec N)) 1 * max (percentileQ (autoKNvec N) 75) 1)

/-- The grid floor `max(k_lo_user, K_MIN)`. -/
def autoKFloor (cfg : MARSConfig) : ℚ := max cfg.K_CONST_BOUNDS.1 cfg.K_MIN

/-- The initial grid `{0.25, 0.5, 1, 2, 4}·beta_auto`, clipped into
`[floorK, k_hi_user]` and deduplicated (`np.unique`, ascending). -/
def autoKGrid0 {T : ℕ} (sqrtQ : ℚ → ℚ) (N : Fin T → Fin T → Cell)
    (cfg : MARSConfig) : List ℚ :=
  dedupSort (([1/4, 1/2, 1, 2, 4] : List ℚ).map fun m =>
    clipQ (m * autoKBeta sqrtQ N) (autoKFloor cfg) cfg.K_CONST_BOUNDS.2)

/-- The precomputed per-cell splits. -/
def autoKSplits {T : ℕ} (S F N : Fin T → Fin T → Cell) (cfg : MARSConfig) :
    List (ℤ × ℤ × ℤ × ℤ) :=
  (obsCells N).map fun c =>
    splitCounts (fill0 (S c.1 c.2)) (fill0 (F c.1 c.2)) cfg.RHO_TEST

/-- `idx_used`: the cells that retain test mass after the split. -/
def autoKIdxUsed {T : ℕ} (S F N : Fin T → Fin T → Cell) (cfg : MARSConfig) :
    List ℕ :=
  (List.range (autoKSplits S F N cfg).length).filter fun i =>
    match (autoKSplits S F N cfg).getD i (0, 0, 0, 0) with
    | (_, _, Wte, Lte) => decide (0 < Wte + Lte)

/-- The full-sample log-likelihood function of `K`. -/
def autoKLL {T : ℕ} (lg : ℚ → ℚ) (S F N : Fin T → Fin T → Cell)
    (cfg : MARSConfig) : ℚ → Option ℚ := fun K =>
  llPredTotal lg cfg.MU (autoKSplits S F N cfg) (autoKIdxUsed S F N cfg) K

/-- The 3-point local bootstrap grid `{K*/√2, K*, K*·√2}` clipped into the
full grid's range (the values of `1/√2` and `√2` are explicit parameters). -/
def autoKLocalGrid (rt2lo rt2hi ks gmin gmax : ℚ) : List ℚ :=
  dedupSort [clipQ (ks * rt2lo) gmin gmax, clipQ ks gmin gmax,
    clipQ (ks * rt2hi) gmin gmax]

/-- One bootstrap resample of the used cells (`rng.integers(0, n, size=n)`,
taken modulo `n` so that the abstract draw function is always in range). -/
def autoKBootSubset (rng : ℕ → ℕ → ℕ) (idxUsed : List ℕ) (b : ℕ) : List ℕ :=
  (List.range idxUsed.length).map fun k =>
    idxUsed.getD (rng b k % idxUsed.length) 0

/-- The bootstrap distribution of chosen `K` over `BOOT_N` resamples. -/
def autoKBoot {T : ℕ} (lg : ℚ → ℚ) (S F N : Fin T → Fin T → Cell)
    (cfg : MARSConfig) (rng : ℕ → ℕ → ℕ) (rt2lo rt2hi ks gmin gmax : ℚ) :
    List ℚ :=
  (List.range cfg.BOOT_N).map fun b =>
    argmaxSmallest ((autoKLocalGrid rt2lo rt2hi ks gmin gmax).map fun K =>
      (K, llPredTotal lg cfg.MU (autoKSplits S F N cfg)
        (autoKBootSubset rng (autoKIdxUsed S F N cfg) b) K))

/-- `mode_freq = mean(isclose(K_boot, K_star, rtol=0, atol=1e-12))`. -/
def autoKModeFreq (cfg : MARSConfig) (ks : ℚ) (kboot : List ℚ) : ℚ :=
  if cfg.BOOT_N = 0 then 0
  else ((kboot.filter fun x => decide (|x - ks| ≤ 1/10^12)).length : ℚ) /
    (cfg.BOOT_N : ℚ)

/-- `at_boundary`: `K_star` sits (within 1e-12) at the grid minimum or
maximum. -/
def autoKAtBoundary (ks : ℚ) (grid : List ℚ) : Bool :=
  decide (|ks - listMin grid| ≤ 1/10^12) || decide (|ks - listMax grid| ≤ 1/10^12)

/-- `clip_lo = max(grid_min, K_MIN, k_lo_user)`. -/
def autoKClipLo (cfg : MARSConfig) (grid : List ℚ) : ℚ :=
  max (max (listMin grid) cfg.K_MIN) cfg.K_CONST_BOUNDS.1

/-- `clip_hi = min(grid_max, k_hi_user, 4·beta_auto)`. -/
def autoKClipHi (cfg : MARSConfig) (betaAuto : ℚ) (grid : List ℚ) : ℚ :=
  min (min (listMax grid) cfg.K_CONST_BOUNDS.2) (betaAuto * 4)

/-- `strong_boundary`: boundary + mode frequency ≥ 0.80 + positive bootstrap
median + IQR/median ≤ 0.05. -/
def autoKStrong (cfg : MARSConfig) (ks : ℚ) (grid : List ℚ) (kboot : List ℚ) :
    Bool :=
  autoKAtBoundary ks grid && decide (4/5 ≤ autoKModeFreq cfg ks kboot) &&
    decide (0 < medianQ kboot) &&
    decide ((percentileQ kboot 75 - percentileQ kboot 25) / medianQ kboot ≤ 1/20)

/-- The result record of `auto_k_cv` (the fields consumed downstream; the
remaining entries of the returned dict are log-only diagnostics). -/
structure AutoKOut where
  K_grid : List ℚ
  K_star : ℚ
  K_used : ℚ
  reason : String
  beta_auto : ℚ
  expansions : ℕ
deriving DecidableEq

/-- The final three-branch decision for `K_used`. -/
def autoKDecide (cfg : MARSConfig) (betaAuto ks : ℚ) (grid : List ℚ)
    (exps : ℕ) (kboot : List ℚ) : AutoKOut :=
  if autoKStrong cfg ks grid kboot then
    ⟨grid, ks, clipQ ks (autoKClipLo cfg grid) (autoKClipHi cfg betaAuto grid),
      "best-boundary-override", betaAuto, exps⟩
  else if autoKAtBoundary ks grid ||
      (decide (0 < medianQ kboot) &&
        decide (7/20 < (percentileQ kboot 75 - percentileQ kboot 25) / medianQ kboot)) ||
      decide (autoKModeFreq cfg ks kboot < 1/2) then
    ⟨grid, ks,
      clipQ (medianQ kboot) (max (betaAuto / 4) (autoKClipLo cfg grid))
        (autoKClipHi cfg betaAuto grid),
      "boot-clipped", betaAuto, exps⟩
  else
    ⟨grid, ks, clipQ ks (autoKClipLo cfg grid) (autoKClipHi cfg betaAuto grid),
      "best", betaAuto, exps⟩

/-- The failure modes of `auto_k_cv` (`RuntimeError` on no observed cells or
no residual test mass; `selFail` models the `min([])` crash reachable only
with a degenerate `μ`/grid). -/
inductive AutoKErr
  | noObs
  | noTest
  | selFail
deriving DecidableEq

/-- `auto_k_cv`: grid construction, deterministic split, grid selection with
downward expansion, deterministic-seed bootstrap, and the final clipped
decision. -/
def auto_k_cv {T : ℕ} (lg sqrtQ : ℚ → ℚ) (rt2lo rt2hi : ℚ)
    (rng : ℕ → ℕ → ℕ) (S F N : Fin T → Fin T → Cell) (cfg : MARSConfig) :
    Except AutoKErr AutoKOut :=
  if (obsCells N).isEmpty then .error .noObs
  else if (autoKIdxUsed S F N cfg).isEmpty then .error .noTest
  else
    match selectOn (autoKLL lg S F N cfg) (autoKGrid0 sqrtQ N cfg)
        cfg.REL_TOL_LL with
    | none => .error .selFail
    | some (bi0, ks0) =>
      match expandGo (autoKLL lg S F N cfg) (autoKFloor cfg) cfg.REL_TOL_LL 2
          (autoKGrid0 sqrtQ N cfg) bi0 ks0 0 with
      | none => .error .selFail
      | some (grid, _, ks, exps) =>
        .ok (autoKDecide cfg (autoKBeta sqrtQ N) ks grid exps
          (autoKBoot lg S F N cfg rng rt2lo rt2hi ks (listMin grid)
            (listMax grid)))

/-- Insertion preserves the elements. -/
theorem insSorted_perm (x : ℚ) (l : List ℚ) :
    List.Perm (insSorted x l) (x :: l) := by
  induction l with
  | nil => exact List.Perm.refl _
  | cons y ys ih =>
    unfold insSorted
    split
    · exact List.Perm.refl _
    · exact (ih.cons y).trans (List.Perm.swap x y ys)

/-- The insertion sort is a permutation. -/
theorem sortQ_perm (l : List ℚ) : List.Perm (sortQ l) l := by
  induction l with
  | nil => exact List.Perm.refl _
  | cons x xs ih => exact (insSorted_perm x (sortQ xs)).trans (ih.cons x)

/-- Sorting preserves membership. -/
theorem mem_sortQ {x : ℚ} {l : List ℚ} : x ∈ sortQ l ↔ x ∈ l :=
  (sortQ_perm l).mem_iff

/-- `np.unique` preserves membership. -/
theorem mem_dedupSort {x : ℚ} {l : List ℚ} : x ∈ dedupSort l ↔ x ∈ l := by
  unfold dedupSort
  rw [List.mem_dedup, mem_sortQ]

/-- `np.unique` of a nonempty list is nonempty. -/
theorem dedupSort_ne_nil {l : List ℚ} (h : l ≠ []) : dedupSort l ≠ [] := by
  obtain ⟨x, hx⟩ := List.exists_mem_of_ne_nil l h
  intro hd
  have hmem := mem_dedupSort.mpr hx
  rw [hd] at hmem
  cases hmem

/-- A min-fold lands on its seed or on a list element. -/
theorem foldl_min_mem (xs : List ℚ) :
    ∀ x : ℚ, xs.foldl min x = x ∨ xs.foldl min x ∈ xs := by
  induction xs with
  | nil => exact fun x => Or.inl rfl
  | cons y ys ih =>
    intro x
    rw [List.foldl_cons]
    rcases ih (min x y) with h | h
    · rcases min_choice x y with hc | hc
      · exact Or.inl (h.trans hc)
      · exact Or.inr (by rw [h, hc]; exact List.mem_cons_self y ys)
    · exact Or.inr (List.mem_cons_of_mem y h)

/-- A max-fold lands on its seed or on a list element. -/
theorem foldl_max_mem (xs : List ℚ) :
    ∀ x : ℚ, xs.foldl max x = x ∨ xs.foldl max x ∈ xs := by
  induction xs with
  | nil => exact fun x => Or.inl rfl
  | cons y ys ih =>
    intro x
    rw [List.foldl_cons]
    rcases ih (max x y) with h | h
    · rcases max_choice x y with hc | hc
      · exact Or.inl (h.trans hc)
      · exact Or.inr (by rw [h, hc]; exact List.mem_cons_self y ys)
    · exact Or.inr (List.mem_cons_of_mem y h)

/-- The minimum of a nonempty list is one of its elements. -/
theorem listMin_mem {l : List ℚ} (h : l ≠ []) : listMin l ∈ l := by
  match l with
  | x :: xs =>
    show List.foldl min x xs ∈ x :: xs
    rcases foldl_min_mem xs x with h2 | h2
    · rw [h2]; exact List.mem_cons_self x xs
    · exact List.mem_cons_of_mem x h2

/-- The maximum of a nonempty list is one of its elements. -/
theorem listMax_mem {l : List ℚ} (h : l ≠ []) : listMax l ∈ l := by
  match l with
  | x :: xs =>
    show List.foldl max x xs ∈ x :: xs
    rcases foldl_max_mem xs x with h2 | h2
    · rw [h2]; exact List.mem_cons_self x xs
    · exact List.mem_cons_of_mem x h2

/-- `np.clip` stays inside a well-ordered range. -/
theorem clipQ_bounds_in (x lo hi : ℚ) (h : lo ≤ hi) :
    lo ≤ clipQ x lo hi ∧ clipQ x lo hi ≤ hi :=
  ⟨le_min (le_max_right x lo) h, min_le_right _ _⟩

/-- `np.clip` never exceeds its upper edge. -/
theorem clipQ_le_hi (x lo hi : ℚ) : clipQ x lo hi ≤ hi := min_le_right _ _

/-- `np.clip` stays above any common lower bound of its edges (also when
`lo > hi`, where NumPy returns `hi`). -/
theorem clipQ_ge (x lo hi klo : ℚ) (h1 : klo ≤ lo) (h2 : klo ≤ hi) :
    klo ≤ clipQ x lo hi :=
  le_min (le_trans h1 (le_max_right x lo)) h2

/-- Every initial grid point lies between the floor and the user's upper
bound. -/
theorem autoKGrid0_bounds {T : ℕ} (sqrtQ : ℚ → ℚ) (N : Fin T → Fin T → Cell)
    (cfg : MARSConfig) (hfk : autoKFloor cfg ≤ cfg.K_CONST_BOUNDS.2) :
    ∀ g ∈ autoKGrid0 sqrtQ N cfg,
      autoKFloor cfg ≤ g ∧ g ≤ cfg.K_CONST_BOUNDS.2 := by
  intro g hg
  unfold autoKGrid0 at hg
  rw [mem_dedupSort] at hg
  obtain ⟨m, -, hm⟩ := List.mem_map.mp hg
  rw [← hm]
  exact clipQ_bounds_in _ _ _ hfk

/-- The initial grid is nonempty. -/
theorem autoKGrid0_ne_nil {T : ℕ} (sqrtQ : ℚ → ℚ) (N : Fin T → Fin T → Cell)
    (cfg : MARSConfig) : autoKGrid0 sqrtQ N cfg ≠ [] := by
  apply dedupSort_ne_nil
  simp

/-- The expansion loop preserves the grid bounds and nonemptiness. -/
theorem expandGo_bounds (llf : ℚ → Option ℚ) (floorK relTol kHi : ℚ)
    (hf0 : 0 < floorK) (hfk : floorK ≤ kHi) :
    ∀ (fuel : ℕ) (grid : List ℚ) (bi : ℕ) (ks : ℚ) (exps : ℕ)
      (grid2 : List ℚ) (bi2 : ℕ) (ks2 : ℚ) (exps2 : ℕ),
      (∀ g ∈ grid, floorK ≤ g ∧ g ≤ kHi) → grid ≠ [] →
      expandGo llf floorK relTol fuel grid bi ks exps =
        some (grid2, bi2, ks2, exps2) →
      (∀ g ∈ grid2, floorK ≤ g ∧ g ≤ kHi) ∧ grid2 ≠ [] := by
  intro fuel
  induction fuel with
  | zero =>
    intro grid bi ks exps grid2 bi2 ks2 exps2 hg hne he
    cases he
    exact ⟨hg, hne⟩
  | succ n ih =>
    intro grid bi ks exps grid2 bi2 ks2 exps2 hg hne he
    unfold expandGo at he
    split at he
    · next hcond =>
      split at he
      · cases he
      · next bk hsel =>
        have hmin := hg _ (listMin_mem hne)
        have hext : ∀ g ∈ dedupSort (max (listMin grid / 2) floorK :: grid),
            floorK ≤ g ∧ g ≤ kHi := by
          intro g hgm
          rw [mem_dedupSort] at hgm
          rcases List.mem_cons.mp hgm with hgm | hgm
          · rw [hgm]
            constructor
            · exact le_max_right _ _
            · apply max_le _ hfk
              have h2 : listMin grid / 2 ≤ listMin grid := by
                have := hmin.1
                linarith
              exact le_trans h2 hmin.2
          · exact hg g hgm
        exact ih _ _ _ _ _ _ _ _ hext
          (dedupSort_ne_nil (by intro h0; cases h0)) he
    · cases he
      exact ⟨hg, hne⟩

/-- All three branches of the final decision report the same `beta_auto`. -/
theorem autoKDecide_beta (cfg : MARSConfig) (β ks : ℚ) (grid : List ℚ)
    (exps : ℕ) (kb : List ℚ) :
    (autoKDecide cfg β ks grid exps kb).beta_auto = β := by
  unfold autoKDecide
  split
  · rfl
  · split <;> rfl

/-- Bounds of the final decision: whatever the boundary/bootstrap state, the
clipped `K_used` lies between `K_CONST_BOUNDS.1` and `K_CONST_BOUNDS.2`,
provided the lower bound does not exceed `4·beta_auto` (the third component of
`clip_hi`). -/
theorem autoKDecide_bounds (cfg : MARSConfig) (β ks : ℚ) (grid : List ℚ)
    (exps : ℕ) (kb : List ℚ)
    (hg : ∀ g ∈ grid, autoKFloor cfg ≤ g ∧ g ≤ cfg.K_CONST_BOUNDS.2)
    (hne : grid ≠ [])
    (hlohi : cfg.K_CONST_BOUNDS.1 ≤ cfg.K_CONST_BOUNDS.2)
    (_hmin : cfg.K_MIN ≤ cfg.K_CONST_BOUNDS.2)
    (hbeta : cfg.K_CONST_BOUNDS.1 ≤ β * 4) :
    cfg.K_CONST_BOUNDS.1 ≤ (autoKDecide cfg β ks grid exps kb).K_used ∧
    (autoKDecide cfg β ks grid exps kb).K_used ≤ cfg.K_CONST_BOUNDS.2 := by
  have hminmem := hg _ (listMin_mem hne)
  have hmaxmem := hg _ (listMax_mem hne)
  have hfl : cfg.K_CONST_BOUNDS.1 ≤ autoKFloor cfg := le_max_left _ _
  have hlo1 : cfg.K_CONST_BOUNDS.1 ≤ autoKClipLo cfg grid := le_max_right _ _
  have hhi1 : cfg.K_CONST_BOUNDS.1 ≤ autoKClipHi cfg β grid := by
    unfold autoKClipHi
    exact le_min (le_min (le_trans hfl hmaxmem.1) hlohi) hbeta
  have hhi2 : autoKClipHi cfg β grid ≤ cfg.K_CONST_BOUNDS.2 :=
    le_trans (min_le_left _ _) (min_le_right _ _)
  unfold autoKDecide
  split
  · exact ⟨clipQ_ge _ _ _ _ hlo1 hhi1, le_trans (clipQ_le_hi _ _ _) hhi2⟩
  · split
    · exact ⟨clipQ_ge _ _ _ _ (le_trans hlo1 (le_max_right _ _)) hhi1,
        le_trans (clipQ_le_hi _ _ _) hhi2⟩
    · exact ⟨clipQ_ge _ _ _ _ hlo1 hhi1, le_trans (clipQ_le_hi _ _ _) hhi2⟩

/-- C3 (amended): whenever `auto_k_cv` succeeds under a well-ordered
configuration (`k_lo ≤ k_hi`, `K_MIN ≤ k_hi`, `0 < k_lo`), its `K_used`
satisfies `K_used ≤ K_CONST_BOUNDS.2` and — provided additionally
`K_CONST_BOUNDS.1 ≤ 4·beta_auto` — also `K_CONST_BOUNDS.1 ≤ K_used`.  The
extra proviso is forced by the `min(grid_max, user_hi, 4·beta_auto)` clip of
the source (see the counterexample, where `4·beta_auto < K_CONST_BOUNDS.1`
drives `K_used` below the configured lower bound). -/
theorem c3_kused_bounds_amended {T : ℕ} (lg sqrtQ : ℚ → ℚ) (rt2lo rt2hi : ℚ)
    (rng : ℕ → ℕ → ℕ) (S F N : Fin T → Fin T → Cell) (cfg : MARSConfig)
    (out : AutoKOut)
    (hlohi : cfg.K_CONST_BOUNDS.1 ≤ cfg.K_CONST_BOUNDS.2)
    (hmin : cfg.K_MIN ≤ cfg.K_CONST_BOUNDS.2)
    (hpos : 0 < cfg.K_CONST_BOUNDS.1)
    (hok : auto_k_cv lg sqrtQ rt2lo rt2hi rng S F N cfg = .ok out)
    (hbeta : cfg.K_CONST_BOUNDS.1 ≤ out.beta_auto * 4) :
    cfg.K_CONST_BOUNDS.1 ≤ out.K_used ∧ out.K_used ≤ cfg.K_CONST_BOUNDS.2 := by
  have hfk : autoKFloor cfg ≤ cfg.K_CONST_BOUNDS.2 := max_le hlohi hmin
  have hf0 : 0 < autoKFloor cfg := lt_of_lt_of_le hpos (le_max_left _ _)
  unfold auto_k_cv at hok
  split at hok
  · cases hok
  · split at hok
    · cases hok
    · split at hok
      · cases hok
      · split at hok
        · cases hok
        · next grid bi ks exps hexp =>
          cases hok
          have hgb := expandGo_bounds (autoKLL lg S F N cfg) (autoKFloor cfg)
            cfg.REL_TOL_LL cfg.K_CONST_BOUNDS.2 hf0 hfk 2 _ _ _ _ _ _ _ _
            (autoKGrid0_bounds sqrtQ N cfg hfk)
            (autoKGrid0_ne_nil sqrtQ N cfg) hexp
          rw [autoKDecide_beta] at hbeta
          exact autoKDecide_bounds cfg _ ks grid exps _ hgb.1 hgb.2 hlohi hmin
            hbeta

/-! C3 concrete instance: two decks with `W = L = 1` in both directions
(`N = 2` everywhere off-diagonal, so `beta_auto = √4 = 2`), a constant
`lgamma` surrogate (immaterial: the clipped grid collapses to one point, so
selection and bootstrap are forced), and a constant draw function. -/

/-- Wins matrix of the C3 instance. -/
def c3S : Fin 2 → Fin 2 → Cell := fun i j => if i = j then none else some 1

/-- Losses matrix of the C3 instance. -/
def c3F : Fin 2 → Fin 2 → Cell := fun i j => if i = j then none else some 1

/-- `N = S.fillna(0) + F.fillna(0)`. -/
def c3N : Fin 2 → Fin 2 → Cell := fun i j =>
  some (fill0 (c3S i j) + fill0 (c3F i j))

/-- A trivial `lgamma` surrogate (the forced trajectory never compares
log-likelihood values of distinct grid points). -/
def c3lg : ℚ → ℚ := fun _ => 0

/-- A square-root surrogate exact at the one point used (`√4 = 2`). -/
def c3sqrt : ℚ → ℚ := fun x => if x = 4 then 2 else 0

/-- A constant bootstrap draw function. -/
def c3rng : ℕ → ℕ → ℕ := fun _ _ => 0

/-- Rational value of `1/√2`. -/
def c3r2lo : ℚ := 7071067812/10^10

/-- Rational value of `√2`. -/
def c3r2hi : ℚ := 14142135624/10^10

/-- Configuration with absolute bounds `(10, 50)` (and a small bootstrap
count, which only shortens the forced-identical bootstrap list). -/
def c3cfgX : MARSConfig := { K_CONST_BOUNDS := (10, 50), BOOT_N := 5 }

/-- A second, very different `lgamma` surrogate, to exhibit that the forced
trajectory does not depend on the log-likelihood values. -/
def c3lg2 : ℚ → ℚ := fun x => x * x - 3

/-- A second draw function, to exhibit that the forced trajectory does not
depend on the bootstrap draws. -/
def c3rng2 : ℕ → ℕ → ℕ := fun b k => 5 * b + 7 * k + 3

/-- C3 counterexample: with configured absolute bounds `(10, 50)` and data of
uniform volume 2, the grid collapses to `{10}`, the bootstrap is unanimous, and
the strong-boundary branch clips `K_star = 10` into
`[10, min(10, 50, 4·beta_auto = 8)]`, returning `K_used = 8 < 10` — outside
the configured bounds.  The run is repeated with an unrelated `lgamma`
surrogate, an unrelated draw function and different `√2` rationals to exhibit
that none of them influence the outcome, and the last conjuncts certify the
square-root surrogate at the one point it is evaluated
(`beta_auto = √4 = 2`). -/
theorem c3_kused_bounds_counterexample :
    auto_k_cv c3lg c3sqrt c3r2lo c3r2hi c3rng c3S c3F c3N c3cfgX =
      .ok ⟨[10], 10, 8, "best-boundary-override", 2, 0⟩ ∧
    auto_k_cv c3lg2 c3sqrt (1/2) 3 c3rng2 c3S c3F c3N c3cfgX =
      .ok ⟨[10], 10, 8, "best-boundary-override", 2, 0⟩ ∧
    c3cfgX.K_CONST_BOUNDS.1 = 10 ∧ c3cfgX.K_CONST_BOUNDS.2 = 50 ∧
    ¬ ((10:ℚ) ≤ 8) ∧
    c3sqrt 4 = 2 ∧ (2:ℚ) ^ 2 = 4 ∧ (0:ℚ) ≤ 2 := by
  refine ⟨by with_unfolding_all rfl, by with_unfolding_all rfl,
    by with_unfolding_all rfl, by with_unfolding_all rfl, by norm_num,
    by with_unfolding_all rfl, by norm_num, by norm_num⟩

/-- The default configuration with a small bootstrap count. -/
def c3cfgW : MARSConfig := { BOOT_N := 5 }

/-- The successful Auto-K output of the C3 witness run. -/
def c3outW : AutoKOut :=
  match auto_k_cv c3lg c3sqrt c3r2lo c3r2hi c3rng c3S c3F c3N c3cfgW with
  | .ok o => o
  | .error _ => ⟨[], 0, 0, "", 0, 0⟩

/-- Witness for C3 (amended): under the default bounds `(0.05, 50)` the same
data yield a successful run with `K_used = 1/8`, inside the configured
bounds. -/
theorem c3_kused_bounds_witness :
    (c3cfgW.K_CONST_BOUNDS.1 ≤ c3cfgW.K_CONST_BOUNDS.2 ∧
     c3cfgW.K_MIN ≤ c3cfgW.K_CONST_BOUNDS.2 ∧
     0 < c3cfgW.K_CONST_BOUNDS.1 ∧
     c3cfgW.K_CONST_BOUNDS.1 ≤ c3outW.beta_auto * 4) ∧
    auto_k_cv c3lg c3sqrt c3r2lo c3r2hi c3rng c3S c3F c3N c3cfgW =
      .ok c3outW ∧
    c3outW.K_used = 1/8 ∧
    (c3cfgW.K_CONST_BOUNDS.1 ≤ c3outW.K_used ∧
     c3outW.K_used ≤ c3cfgW.K_CONST_BOUNDS.2) := by
  have hok : auto_k_cv c3lg c3sqrt c3r2lo c3r2hi c3rng c3S c3F c3N c3cfgW =
      .ok c3outW := by
    with_unfolding_all rfl
  refine ⟨⟨by with_unfolding_all decide, by with_unfolding_all decide,
    by with_unfolding_all decide, by with_unfolding_all decide⟩, hok,
    by with_unfolding_all rfl, ?_⟩
  exact c3_kused_bounds_amended c3lg c3sqrt c3r2lo c3r2hi c3rng c3S c3F c3N
    c3cfgW c3outW (by with_unfolding_all decide) (by with_unfolding_all decide)
    (by with_unfolding_all decide) hok (by with_unfolding_all decide)

/-! ## `src/mars/validate_io.py` — `validate_contract` -/

/-- Prefix test on character lists. -/
def listPref : List Char → List Char → Bool
  | [], _ => true
  | _ :: _, [] => false
  | a :: as, b :: bs => a = b && listPref as bs

/-- Python's substring containment `pat in s`. -/
def strContains (s pat : String) : Bool :=
  (List.range (s.toList.length + 1)).any fun k =>
    listPref pat.toList (s.toList.drop k)

/-- The whole diagonal is undefined (`np.diag` of a rectangular array has
`min(rows, cols)` entries). -/
def DiagUndef (t : PTable) : Prop :=
  ∀ k < min t.idx.length t.cols.length, t.val k k = none

instance (t : PTable) : Decidable (DiagUndef t) :=
  Nat.decidableBallLT _ _

/-- Label-based cell lookup (pandas alignment). -/
def lookupLab (t : PTable) (a b : String) : Cell :=
  match t.idx.findIdx? (fun x => x = a), colPos t b with
  | some i, some j => t.val i j
  | _, _ => none

/-- `((filtered_wr + filtered_wr.T) - 100).abs() > 1.0` holds somewhere on the
defined mask (pandas aligns the sum by labels over the union of the two label
sets; a NaN on either side is masked out). -/
def wrSymBad (wr : PTable) : Bool :=
  (wr.idx ++ wr.cols).any fun a => (wr.cols ++ wr.idx).any fun b =>
    match lookupLab wr a b, lookupLab wr b a with
    | some x, some y => decide (1 < |x + y - 100|)
    | _, _ => false

/-- `(n_dir.fillna(0) - n_dir.T.fillna(0)).to_numpy().any()`: after label
alignment a cell is truthy when both directions exist and differ, and also
when exactly one exists (the alignment introduces a NaN there, and NaN is
truthy for NumPy `.any()`). -/
def nSymBad (t : PTable) : Bool :=
  (t.idx ++ t.cols).any fun a => (t.cols ++ t.idx).any fun b =>
    match (match t.idx.findIdx? (fun x => x = a), colPos t b with
           | some i, some j => some (fill0 (t.val i j))
           | _, _ => (none : Cell)),
          (match t.idx.findIdx? (fun x => x = b), colPos t a with
           | some i, some j => some (fill0 (t.val i j))
           | _, _ => (none : Cell)) with
    | some x, some y => decide (¬ x - y = 0)
    | _, _ => true

/-- The issue list, in source order, as a function of the six check bits. -/
def mkIssues (b1 b2 b3 b4 b5 b6 : Bool) : List String :=
  (if b1 then ["shape mismatch"] else []) ++
  (if b2 then ["axis mismatch"] else []) ++
  (if b3 then ["filtered_wr diag not NaN"] else []) ++
  (if b4 then ["n_dir diag not NaN"] else []) ++
  (if b5 then ["WR symmetry off >1.0pp"] else []) ++
  (if b6 then ["n_dir not symmetric"] else [])

/-- The returned flag:
`ok and len([e for e in issues if "mismatch" in e]) == 0`, where the local
`ok` was falsified by any of the first four checks. -/
def mkOk (b1 b2 b3 b4 b5 b6 : Bool) : Bool :=
  (!(b1 || b2 || b3 || b4)) &&
    decide (((mkIssues b1 b2 b3 b4 b5 b6).filter
      (fun e => strContains e "mismatch")).length = 0)

/-- The local `ok` accumulator and the substring filter agree: the returned
flag is false exactly when one of the first four checks fired. -/
theorem mkOk_eq : ∀ b1 b2 b3 b4 b5 b6 : Bool,
    mkOk b1 b2 b3 b4 b5 b6 = !(b1 || b2 || b3 || b4) := by
  decide

/-- The `{ok, issues}` result of the validator. -/
structure VResult where
  ok : Bool
  issues : List String

/-- `validate_contract`: shape, axis, diagonal (fatal, "mismatch"-class) and
the two advisory symmetry checks. -/
def validate_contract (wr nT : PTable) : VResult :=
  { ok := mkOk
      (!decide (wr.idx.length = nT.idx.length ∧ wr.cols.length = nT.cols.length))
      (!decide (wr.idx = nT.idx ∧ wr.cols = nT.cols))
      (!decide (DiagUndef wr)) (!decide (DiagUndef nT))
      (wrSymBad wr) (nSymBad nT)
    issues := mkIssues
      (!decide (wr.idx.length = nT.idx.length ∧ wr.cols.length = nT.cols.length))
      (!decide (wr.idx = nT.idx ∧ wr.cols = nT.cols))
      (!decide (DiagUndef wr)) (!decide (DiagUndef nT))
      (wrSymBad wr) (nSymBad nT) }

/-! ## `src/mars/pipeline.py` — `run_mars` -/

/-- One row of the flat score table (`Deck A, Deck B, W, L`). -/
structure ScoreRow where
  a : String
  b : String
  W : ℚ
  L : ℚ
deriving DecidableEq

/-- The deck axis: `list(filtered_wr.index)`. -/
def marsAxis (wr : PTable) : Fin wr.idx.length → String := fun i =>
  wr.idx.getD i ""

/-- `pivot_table(values="W", aggfunc="sum").reindex(axis, axis)`: the summed
wins for a directional pair, NaN when no row matches. -/
def pivotW {T : ℕ} (axisN : Fin T → String) (rows : List ScoreRow) :
    Fin T → Fin T → Cell := fun i j =>
  if (rows.filter fun r => decide (r.a = axisN i) && decide (r.b = axisN j)).isEmpty
  then none
  else some (((rows.filter fun r =>
    decide (r.a = axisN i) && decide (r.b = axisN j)).map (fun r => r.W)).sum)

/-- The same pivot for the losses column. -/
def pivotL {T : ℕ} (axisN : Fin T → String) (rows : List ScoreRow) :
    Fin T → Fin T → Cell := fun i j =>
  if (rows.filter fun r => decide (r.a = axisN i) && decide (r.b = axisN j)).isEmpty
  then none
  else some (((rows.filter fun r =>
    decide (r.a = axisN i) && decide (r.b = axisN j)).map (fun r => r.L)).sum)

/-- `N = S.fillna(0) + F.fillna(0)`. -/
def marsN (wr : PTable) (rows : List ScoreRow) :
    Fin wr.idx.length → Fin wr.idx.length → Cell := fun i j =>
  some (fill0 (pivotW (marsAxis wr) rows i j) + fill0 (pivotL (marsAxis wr) rows i j))

/-- The posterior pair of the pipeline run. -/
def marsPost (wr : PTable) (rows : List ScoreRow) (cfg : MARSConfig) (K : ℚ) :
    Posterior wr.idx.length :=
  posterior_dir (pivotW (marsAxis wr) rows) (pivotL (marsAxis wr) rows) K cfg

/-- The transcendental-function bundle threaded through the pipeline. -/
structure TransFns where
  sqrtQ : ℚ → ℚ
  erfQ : ℚ → ℚ
  expQ : ℚ → ℚ
  logQ : ℚ → ℚ
  lgammaQ : ℚ → ℚ
  powQ : ℚ → ℚ → ℚ
  sqrt2 : ℚ
  rt2lo : ℚ
  rt2hi : ℚ

/-- The `mas_se_lb` stage of the pipeline. -/
def marsMasOut (tf : TransFns) (wr nT : PTable) (rows : List ScoreRow)
    (topMeta : Option (List (String × ℚ))) (cfg : MARSConfig) (K : ℚ) :
    MasOut wr.idx.length :=
  mas_se_lb tf.sqrtQ (marsPost wr rows cfg K).p_hat (marsPost wr rows cfg K).var_hat
    (blend_meta nT (marsAxis wr) topMeta cfg).1 (marsN wr rows) cfg

/-- The `bt_soft` stage of the pipeline. -/
def marsBT (tf : TransFns) (wr : PTable) (rows : List ScoreRow)
    (cfg : MARSConfig) (K : ℚ) : BTOut wr.idx.length :=
  bt_soft tf.powQ tf.expQ tf.logQ tf.sqrtQ
    (fun a b => fill0 (marsN wr rows a b)) (marsPost wr rows cfg K).p_hat K cfg

/-- The composite score of the pipeline. -/
def marsScore (tf : TransFns) (wr nT : PTable) (rows : List ScoreRow)
    (topMeta : Option (List (String × ℚ))) (cfg : MARSConfig) (K : ℚ) :
    Fin wr.idx.length → ℚ :=
  compose tf.sqrtQ tf.erfQ tf.sqrt2
    (marsMasOut tf wr nT rows topMeta cfg K).LBpct
    (marsBT tf wr rows cfg K).bt_pct cfg.ALPHA_COMPOSITE

/-- One row of the final ranking table. -/
structure RankRow where
  deck : String
  score : ℚ
  mas : ℚ
  lb : ℚ
  bt : ℚ
  se : ℚ
  nEff : ℚ
  oppUsed : ℕ
  oppTotal : ℕ
  covPct : ℚ
deriving DecidableEq

/-- Insertion into a score-descending list. -/
def insDesc (x : RankRow) : List RankRow → List RankRow
  | [] => [x]
  | y :: ys => if y.score ≤ x.score then x :: y :: ys else y :: insDesc x ys

/-- `sort_values("Score_%", ascending=False)`: a deterministic descending sort
(the source's quicksort leaves the order of exact ties unspecified but
deterministic; this embedding fixes one deterministic order). -/
def rankSort (l : List RankRow) : List RankRow := l.foldr insDesc []

/-- The assembled (sorted) ranking table; rank = 1 + list position. -/
def marsRanking (tf : TransFns) (wr nT : PTable) (rows : List ScoreRow)
    (topMeta : Option (List (String × ℚ))) (cfg : MARSConfig) (K : ℚ) :
    List RankRow :=
  rankSort ((List.finRange wr.idx.length).map fun i =>
    { deck := marsAxis wr i
      score := marsScore tf wr nT rows topMeta cfg K i
      mas := (marsMasOut tf wr nT rows topMeta cfg K).MASpct i
      lb := (marsMasOut tf wr nT rows topMeta cfg K).LBpct i
      bt := (marsBT tf wr rows cfg K).bt_pct i
      se := (marsMasOut tf wr nT rows topMeta cfg K).SEpct i
      nEff := ∑ j, fill0 (marsN wr rows i j)
      oppUsed := (Finset.univ.filter
        (fun j => 0 < fill0 (marsN wr rows i j))).card
      oppTotal := wr.idx.length - 1
      covPct := ((Finset.univ.filter
        (fun j => 0 < fill0 (marsN wr rows i j))).card : ℚ) /
        (max (wr.idx.length - 1) 1 : ℕ) * 100 })

/-- The error taxonomy of `run_mars` (`ValueError` on contract failure or a
missing/empty score table; the Auto-K `RuntimeError`s lifted). -/
inductive MarsError
  | contract (issues : List String)
  | missingScoreFlat
  | autoK (e : AutoKErr)

/-- The pipeline after the validation gate: meta weights, derived W/L
matrices (fatal if the flat table is empty), Auto-K, posterior, MAS/LB, BT,
composite, ranking.  Returns the ranking plus the `K_used`/`reason`
diagnostics block and the meta-blend `γ`. -/
def runMarsBody (tf : TransFns) (rng : ℕ → ℕ → ℕ) (wr nT : PTable)
    (rows : List ScoreRow) (topMeta : Option (List (String × ℚ)))
    (cfg : MARSConfig) : Except MarsError (List RankRow × AutoKOut × ℚ) :=
  if rows.isEmpty then .error .missingScoreFlat
  else
    match auto_k_cv tf.lgammaQ tf.sqrtQ tf.rt2lo tf.rt2hi rng
        (pivotW (marsAxis wr) rows) (pivotL (marsAxis wr) rows)
        (marsN wr rows) cfg with
    | .error e => .error (.autoK e)
    | .ok ak =>
      .ok (marsRanking tf wr nT rows topMeta cfg ak.K_used, ak,
        (blend_meta nT (marsAxis wr) topMeta cfg).2)

/-- `run_mars`: the validation gate (fatal on `ok = false`), then the body.
The bootstrap draw function is produced from the configured seed alone
(`np.random.default_rng(int(cfg.SEED))`), which the `mkRng` parameter makes
explicit. -/
def run_mars (tf : TransFns) (mkRng : ℕ → ℕ → ℕ → ℕ) (wr nT : PTable)
    (scoreFlat : Option (List ScoreRow)) (topMeta : Option (List (String × ℚ)))
    (cfg : MARSConfig) : Except MarsError (List RankRow × AutoKOut × ℚ) :=
  if (validate_contract wr nT).ok = true then
    match scoreFlat with
    | none => .error .missingScoreFlat
    | some rows => runMarsBody tf (mkRng cfg.SEED) wr nT rows topMeta cfg
  else .error (.contract (validate_contract wr nT).issues)

/-- The post-gate body can fail only with the score-table or Auto-K errors,
never with a contract error. -/
theorem runMarsBody_no_contract (tf : TransFns) (rng : ℕ → ℕ → ℕ)
    (wr nT : PTable) (rows : List ScoreRow) (tm : Option (List (String × ℚ)))
    (cfg : MARSConfig) :
    ∀ issuesList, runMarsBody tf rng wr nT rows tm cfg ≠
      .error (.contract issuesList) := by
  intro issuesList h
  unfold runMarsBody at h
  split at h
  · simp at h
  · split at h
    · simp at h
    · simp at h

/-- C6: `validate_contract` returns `ok = false` exactly when a
mismatch-class issue exists (shape mismatch, axis mismatch, or a defined
diagonal entry in either matrix); the two symmetry checks are advisory and
never flip `ok`; and `run_mars` aborts with the contract error exactly when
`ok` is false (its later failure modes are distinct errors). -/
theorem c6_validate_ok_iff_mismatch (tf : TransFns) (mkRng : ℕ → ℕ → ℕ → ℕ)
    (wr nT : PTable) (sf : Option (List ScoreRow))
    (tm : Option (List (String × ℚ))) (cfg : MARSConfig) :
    ((validate_contract wr nT).ok = false ↔
      (¬ (wr.idx.length = nT.idx.length ∧ wr.cols.length = nT.cols.length) ∨
       ¬ (wr.idx = nT.idx ∧ wr.cols = nT.cols) ∨
       ¬ DiagUndef wr ∨ ¬ DiagUndef nT)) ∧
    ((validate_contract wr nT).ok = false ↔
      ∃ issuesList, run_mars tf mkRng wr nT sf tm cfg =
        .error (.contract issuesList)) := by
  have hok : (validate_contract wr nT).ok =
      !((!decide (wr.idx.length = nT.idx.length ∧ wr.cols.length = nT.cols.length)) ||
        (!decide (wr.idx = nT.idx ∧ wr.cols = nT.cols)) ||
        (!decide (DiagUndef wr)) || (!decide (DiagUndef nT))) :=
    mkOk_eq _ _ _ _ _ _
  constructor
  · rw [hok]
    simp only [Bool.not_eq_false', Bool.or_eq_true, Bool.not_eq_true',
      decide_eq_false_iff_not]
    tauto
  · constructor
    · intro hfalse
      refine ⟨(validate_contract wr nT).issues, ?_⟩
      unfold run_mars
      rw [if_neg (by rw [hfalse]; exact Bool.false_ne_true)]
    · rintro ⟨issuesList, habs⟩
      cases h : (validate_contract wr nT).ok
      · rfl
      · exfalso
        unfold run_mars at habs
        rw [if_pos h] at habs
        cases sf with
        | none => simp at habs
        | some rows =>
          exact runMarsBody_no_contract tf (mkRng cfg.SEED) wr nT rows tm cfg
            issuesList habs

/-- C5: the pipeline is a pure function of its inputs, the configuration and
the seed-derived draw stream: two runs on equal inputs, equal configuration
(hence equal `SEED`, from which the only randomized step — the Auto-K
bootstrap — draws) and the same generator family produce identical ranking
tables and identical Auto-K diagnostics. -/
theorem c5_run_mars_deterministic (tf : TransFns) (mkRng : ℕ → ℕ → ℕ → ℕ)
    (wr₁ wr₂ nT₁ nT₂ : PTable) (sf₁ sf₂ : Option (List ScoreRow))
    (tm₁ tm₂ : Option (List (String × ℚ))) (cfg₁ cfg₂ : MARSConfig)
    (hwr : wr₁ = wr₂) (hn : nT₁ = nT₂) (hsf : sf₁ = sf₂) (htm : tm₁ = tm₂)
    (hcfg : cfg₁ = cfg₂) :
    run_mars tf mkRng wr₁ nT₁ sf₁ tm₁ cfg₁ =
      run_mars tf mkRng wr₂ nT₂ sf₂ tm₂ cfg₂ := by
  subst hwr
  subst hn
  subst hsf
  subst htm
  subst hcfg
  rfl

/-- Winrate table of the C5 witness. -/
def c5wr : PTable :=
  { idx := ["A", "B"], cols := ["A", "B"]
    val := fun i j => if i = j then none else some 50 }

/-- Volume table of the C5 witness. -/
def c5n : PTable :=
  { idx := ["A", "B"], cols := ["A", "B"]
    val := fun i j => if i = j then none else some 2 }

/-- Transcendental bundle of the C5 witness. -/
def c5tf : TransFns :=
  { sqrtQ := c3sqrt, erfQ := fun _ => 0, expQ := fun _ => 1, logQ := fun _ => 0
    lgammaQ := c3lg, powQ := fun _ _ => 1, sqrt2 := 2
    rt2lo := c3r2lo, rt2hi := c3r2hi }

/-- Flat score table of the C5 witness. -/
def c5rows : List ScoreRow := [⟨"A", "B", 1, 1⟩, ⟨"B", "A", 1, 1⟩]

/-- Generator family of the C5 witness. -/
def c5mk : ℕ → ℕ → ℕ → ℕ := fun _ _ _ => 0

/-- The kept pair of the C2/C4 concrete instance with a unit power surrogate:
`n_eff = 5`, `w_ij = (17/24)·5`, `w_ji = (7/24)·5`. -/
def c4p : BTPair 2 := ⟨0, 1, 5, 85/24, 35/24⟩

/-- Witness for C4 at a concrete kept edge. -/
theorem c4_bt_pseudo_win_invariant_witness :
    c4p ∈ btPairsOf (fun _ _ => 1) (3/2)
      (btInfoKept c2n (posterior_dir c2S c2F 1 {}).p_hat 1 {}) ∧
    (c4p.wij + c4p.wji = c4p.nEff ∧ |c4p.wij + c4p.wji - c4p.nEff| ≤ 1/10^6 ∧
     0 < c4p.wij ∧ c4p.wij < c4p.nEff ∧ 0 < c4p.wji ∧ c4p.wji < c4p.nEff) ∧
    ¬ btAssertViolated (btPairsOf (fun _ _ => 1) (3/2)
      (btInfoKept c2n (posterior_dir c2S c2F 1 {}).p_hat 1 {})) := by
  have hmem : c4p ∈ btPairsOf (fun _ _ => 1) (3/2)
      (btInfoKept c2n (posterior_dir c2S c2F 1 {}).p_hat 1 {}) := by
    with_unfolding_all decide
  have h := c4_bt_pseudo_win_invariant (fun _ _ => 1) (3/2) c2n
    (posterior_dir c2S c2F 1 {}).p_hat 1 {}
  exact ⟨hmem, h.1 c4p hmem, h.2⟩

/-- Witness for C6 at a concrete valid input: the validator passes and the
pipeline does not abort with the contract error. -/
theorem c6_validate_ok_iff_mismatch_witness :
    (validate_contract c5wr c5n).ok = true ∧
    ¬ (∃ issuesList,
        run_mars c5tf c5mk c5wr c5n (some c5rows) none { BOOT_N := 5 } =
          .error (.contract issuesList)) := by
  have htrue : (validate_contract c5wr c5n).ok = true := by
    with_unfolding_all decide
  refine ⟨htrue, fun hex => ?_⟩
  have hfalse := (c6_validate_ok_iff_mismatch c5tf c5mk c5wr c5n (some c5rows)
    none { BOOT_N := 5 }).2.mpr hex
  rw [htrue] at hfalse
  cases hfalse

/-- Witness for C5 at a concrete two-deck input. -/
theorem c5_run_mars_deterministic_witness :
    run_mars c5tf c5mk c5wr c5n (some c5rows) none { BOOT_N := 5 } =
      run_mars c5tf c5mk c5wr c5n (some c5rows) none { BOOT_N := 5 } :=
  c5_run_mars_deterministic c5tf c5mk c5wr c5wr c5n c5n (some c5rows)
    (some c5rows) none none { BOOT_N := 5 } { BOOT_N := 5 } rfl rfl rfl rfl rfl

end Mars
